import Mathlib

/-!
Verification of the record codec and mood-report aggregation engine of the
howdy journal application.

The Rust sources are shallowly embedded:
* `DailyScore` with its line codec (`DailyScore.to_s`, `DailyScore.parse`)
  from `src/daily_score.rs`;
* `MoodReport` with its aggregates (`thirty_days_mood`, `yearly_mood`,
  `thirty_days_moving_mood`, `iterative_weekly_mood`,
  `iterative_seven_days_mood`, `iterative_thirty_days_mood`,
  `iterative_monthly_mood`) from `src/mood_report.rs`.

Timestamps (`chrono::DateTime<FixedOffset>`) are embedded as a Unix second
count paired with a fixed UTC offset in seconds; the proleptic Gregorian
calendar arithmetic performed by chrono (`date()`, `day0()`, `weekday()`,
formatting and parsing of `%Y-%m-%d %H:%M:%S %z`) is embedded through the
standard days-from-civil / civil-from-days conversions, which agree with
chrono's calendar on every date.  Rust `i64` division and remainder are
embedded as `Int.tdiv` / `Int.tmod` (truncation towards zero); sums of
`i8` scores in `i32` accumulators are embedded as mathematical integers
(wrap-around of the 32-bit accumulator is out of scope).
-/

namespace Howdy

set_option maxHeartbeats 4000000

/-! ## Proleptic Gregorian calendar -/

/-- Civil date `(year, month, day)` of a day count relative to 1970-01-01
(Hinnant's `civil_from_days`; all divisions are euclidean, which on the
occurring nonnegative numerators coincides with the C++ original). -/
def civilFromDays (z : Int) : Int × Int × Int :=
  let z2 := z + 719468
  let era := z2 / 146097
  let doe := z2 - era * 146097
  let yoe := (doe - doe / 1460 + doe / 36524 - doe / 146096) / 365
  let y := yoe + era * 400
  let doy := doe - (365 * yoe + yoe / 4 - yoe / 100)
  let mp := (5 * doy + 2) / 153
  let d := doy - (153 * mp + 2) / 5 + 1
  let m := mp + (if mp < 10 then 3 else -9)
  (if m <= 2 then y + 1 else y, m, d)

/-- Day count relative to 1970-01-01 of a civil date (Hinnant's
`days_from_civil`). -/
def daysFromCivil (y m d : Int) : Int :=
  let y2 := if m <= 2 then y - 1 else y
  let era := y2 / 400
  let yoe := y2 - era * 400
  let doy := (153 * (m + (if m > 2 then -3 else 9)) + 2) / 5 + d - 1
  let doe := yoe * 365 + yoe / 4 - yoe / 100 + doy
  era * 146097 + doe - 719468

/-- Length of a month in the proleptic Gregorian calendar. -/
def daysInMonth (y m : Int) : Int :=
  if m = 2 then (if y % 4 = 0 ∧ (y % 100 ≠ 0 ∨ y % 400 = 0) then 29 else 28)
  else if m = 4 ∨ m = 6 ∨ m = 9 ∨ m = 11 then 30
  else 31

/-- Day-of-shifted-year bounds for the year extraction inside
`civilFromDays`: the remainder is between 0 and 365, and reaches 365 only
in leap years. -/
theorem doy_refined (doe yoe doy : Int)
    (hdoe : 0 ≤ doe ∧ doe ≤ 146096)
    (hyoe : yoe = (doe - doe / 1460 + doe / 36524 - doe / 146096) / 365)
    (hdoy : doy = doe - (365 * yoe + yoe / 4 - yoe / 100)) :
    0 ≤ doy ∧ doy ≤ 365 ∧
      (doy = 365 → (yoe + 1) % 4 = 0 ∧ ((yoe + 1) % 100 ≠ 0 ∨ (yoe + 1) % 400 = 0)) := by
  have hb : 0 ≤ yoe ∧ yoe ≤ 399 := by omega
  obtain ⟨hb1, hb2⟩ := hb
  interval_cases yoe <;> omega

/-- The year-of-era extraction lands in `[0, 399]`. -/
theorem yoe_bounds (doe yoe : Int)
    (hdoe : 0 ≤ doe ∧ doe ≤ 146096)
    (hyoe : yoe = (doe - doe / 1460 + doe / 36524 - doe / 146096) / 365) :
    0 ≤ yoe ∧ yoe ≤ 399 := by
  omega

/-- The year extraction is left inverse to the year start offset: a day
`r` into shifted year `yoe` extracts back to `yoe`. -/
theorem extract_val (yoe r doe : Int)
    (hy : 0 ≤ yoe ∧ yoe ≤ 399)
    (hr : 0 ≤ r)
    (hr2 : r ≤ 364 ∨ (r = 365 ∧ (yoe + 1) % 4 = 0 ∧ ((yoe + 1) % 100 ≠ 0 ∨ (yoe + 1) % 400 = 0)))
    (hdoe : doe = yoe * 365 + yoe / 4 - yoe / 100 + r) :
    (doe - doe / 1460 + doe / 36524 - doe / 146096) / 365 = yoe := by
  obtain ⟨h1, h2⟩ := hy
  interval_cases yoe <;> omega

/-- The shifted-month extraction is left inverse to the month offset. -/
theorem mp_recover (mp doy : Int)
    (_hmp : 0 ≤ mp ∧ mp ≤ 11)
    (hlo : (153 * mp + 2) / 5 ≤ doy)
    (hhi : doy < (153 * (mp + 1) + 2) / 5) :
    (5 * doy + 2) / 153 = mp := by
  omega

/-- Core of `daysFromCivil_civilFromDays`: the second pass re-assembles
the day count from the values extracted by the first pass. -/
theorem hinnant_core (z era doe yoe doy mp m d y : Int)
    (hera : era = (z + 719468) / 146097)
    (hdoe : doe = z + 719468 - era * 146097)
    (hyoe : yoe = (doe - doe / 1460 + doe / 36524 - doe / 146096) / 365)
    (hdoy : doy = doe - (365 * yoe + yoe / 4 - yoe / 100))
    (hmp : mp = (5 * doy + 2) / 153)
    (hm : m = mp + (if mp < 10 then 3 else -9))
    (hd : d = doy - (153 * mp + 2) / 5 + 1)
    (hy : y = if m <= 2 then yoe + era * 400 + 1 else yoe + era * 400) :
    daysFromCivil y m d = z := by
  have hdoeB : 0 ≤ doe ∧ doe ≤ 146096 := by
    clear hm hd hy hyoe hdoy hmp
    omega
  have hdoyB := doy_refined doe yoe doy hdoeB hyoe hdoy
  have hyoeB := yoe_bounds doe yoe hdoeB hyoe
  have hmpB : 0 ≤ mp ∧ mp ≤ 11 := by
    clear hm hd hy hera hdoe hyoe
    omega
  have hy2 : (if m <= 2 then y - 1 else y) = yoe + era * 400 := by
    rw [hy]
    split_ifs <;> omega
  have hmmp : m + (if m > 2 then (-3 : Int) else 9) = mp := by
    rw [hm]
    split_ifs <;> omega
  unfold daysFromCivil
  dsimp only
  rw [hy2]
  have hk : (yoe + era * 400) / 400 = era := by
    clear hm hd hy hera hdoe hyoe hdoy hmp
    omega
  rw [hk]
  have hyoe2 : yoe + era * 400 - era * 400 = yoe := by ring
  rw [hyoe2, hmmp]
  clear hm hy hy2 hmmp hk hyoe2
  omega

/-- `daysFromCivil` is a left inverse of `civilFromDays`. -/
theorem daysFromCivil_civilFromDays (z : Int) :
    daysFromCivil (civilFromDays z).1 (civilFromDays z).2.1 (civilFromDays z).2.2 = z := by
  have h := hinnant_core z _ _ _ _ _ _ _ _ rfl rfl rfl rfl rfl rfl rfl rfl
  unfold civilFromDays
  dsimp only
  exact h

/-- View of `civilFromDays` through its intermediate values. -/
theorem cfd_spec (z era doe yoe doy mp m1 d1 y1 : Int)
    (hera : era = (z + 719468) / 146097)
    (hdoe : doe = z + 719468 - era * 146097)
    (hyoe : yoe = (doe - doe / 1460 + doe / 36524 - doe / 146096) / 365)
    (hdoy : doy = doe - (365 * yoe + yoe / 4 - yoe / 100))
    (hmp : mp = (5 * doy + 2) / 153)
    (hm1 : m1 = mp + (if mp < 10 then 3 else -9))
    (hd1 : d1 = doy - (153 * mp + 2) / 5 + 1)
    (hy1 : y1 = if m1 <= 2 then yoe + era * 400 + 1 else yoe + era * 400) :
    civilFromDays z = (y1, m1, d1) := by
  subst hy1 hd1 hm1 hmp hdoy hyoe hdoe hera
  rfl

/-- Core of `civilFromDays_daysFromCivil`: on a calendar-valid date the
first pass recovers the values assembled by the second pass. -/
theorem cfd_dfc_core (y m d y2 era yoe mpv mo doy doe z : Int)
    (hmB : 1 ≤ m ∧ m ≤ 12) (hdl : 1 ≤ d) (hdu : d ≤ daysInMonth y m)
    (hy2 : y2 = if m <= 2 then y - 1 else y)
    (hera : era = y2 / 400)
    (hyoe : yoe = y2 - era * 400)
    (hmpv : mpv = m + (if m > 2 then -3 else 9))
    (hmo : mo = (153 * mpv + 2) / 5)
    (hdoy : doy = mo + d - 1)
    (hdoe : doe = yoe * 365 + yoe / 4 - yoe / 100 + doy)
    (hz : z = era * 146097 + doe - 719468) :
    civilFromDays z = (y, m, d) := by
  have hyoeB : 0 ≤ yoe ∧ yoe ≤ 399 := by omega
  have hmpvB : 0 ≤ mpv ∧ mpv ≤ 11 := by
    have hc := hmpv
    split_ifs at hc <;> omega
  have hdoyB : 0 ≤ doy ∧
      (doy ≤ 364 ∨ (doy = 365 ∧ (yoe + 1) % 4 = 0 ∧ ((yoe + 1) % 100 ≠ 0 ∨ (yoe + 1) % 400 = 0))) := by
    obtain ⟨hmBl, hmBu⟩ := hmB
    have hc := hdu
    have hc2 := hy2
    have hc3 := hmpv
    unfold daysInMonth at hc
    interval_cases m <;> split_ifs at hc hc2 hc3 <;> omega
  have hdoeB : 0 ≤ doe ∧ doe ≤ 146096 := by omega
  have hera2 : (z + 719468) / 146097 = era := by omega
  have hdoe2 : z + 719468 - era * 146097 = doe := by omega
  have hyoe2 : (doe - doe / 1460 + doe / 36524 - doe / 146096) / 365 = yoe :=
    extract_val yoe doy doe hyoeB (by omega) (by omega) hdoe
  have hdoy2 : doe - (365 * yoe + yoe / 4 - yoe / 100) = doy := by omega
  have hhi : doy < (153 * (mpv + 1) + 2) / 5 := by
    obtain ⟨hmBl, hmBu⟩ := hmB
    have hc := hdu
    have hc3 := hmpv
    unfold daysInMonth at hc
    interval_cases m <;> split_ifs at hc hc3 <;> omega
  have hmp2 : (5 * doy + 2) / 153 = mpv := mp_recover mpv doy hmpvB (by omega) hhi
  have hm1 : m = mpv + (if mpv < 10 then 3 else -9) := by
    have hc := hmpv
    split_ifs at hc <;> split_ifs <;> omega
  have hd1 : d = doy - (153 * mpv + 2) / 5 + 1 := by omega
  have hy1 : y = if m <= 2 then yoe + era * 400 + 1 else yoe + era * 400 := by
    have hc := hy2
    split_ifs at hc ⊢ <;> omega
  exact cfd_spec z era doe yoe doy mpv m d y hera2.symm hdoe2.symm hyoe2.symm hdoy2.symm
    hmp2.symm hm1 hd1 hy1

/-- `civilFromDays` is a left inverse of `daysFromCivil` on calendar-valid
dates. -/
theorem civilFromDays_daysFromCivil (y m d : Int)
    (hmB : 1 ≤ m ∧ m ≤ 12) (hdl : 1 ≤ d) (hdu : d ≤ daysInMonth y m) :
    civilFromDays (daysFromCivil y m d) = (y, m, d) := by
  refine cfd_dfc_core y m d _ _ _ _ _ _ _ (daysFromCivil y m d)
    hmB hdl hdu rfl rfl rfl rfl rfl rfl rfl ?_
  unfold daysFromCivil
  rfl

/-- The width of shifted month `mp ≤ 10` is at most the calendar length of
the corresponding month. -/
theorem month_len_table (mp m1 y1 : Int) (hl : 0 ≤ mp) (hu : mp ≤ 10)
    (hm1 : m1 = mp + (if mp < 10 then 3 else -9)) :
    (153 * (mp + 1) + 2) / 5 - (153 * mp + 2) / 5 ≤ daysInMonth y1 m1 := by
  unfold daysInMonth
  interval_cases mp <;> split_ifs at hm1 ⊢ <;> omega

/-- February length versus the refined day-of-year bound. -/
theorem feb_len (yoe era y1 d1 doy : Int)
    (hy1 : y1 = yoe + era * 400 + 1)
    (hdoy : doy ≤ 365 ∧ (doy = 365 → (yoe + 1) % 4 = 0 ∧ ((yoe + 1) % 100 ≠ 0 ∨ (yoe + 1) % 400 = 0)))
    (hd1 : d1 = doy - 337 + 1) :
    d1 ≤ daysInMonth y1 2 := by
  unfold daysInMonth
  split_ifs <;> omega

/-- Core of `cfd_valid`: `civilFromDays` produces calendar-valid dates. -/
theorem cfd_valid_core (z era doe yoe doy mp m1 d1 y1 : Int)
    (hera : era = (z + 719468) / 146097)
    (hdoe : doe = z + 719468 - era * 146097)
    (hyoe : yoe = (doe - doe / 1460 + doe / 36524 - doe / 146096) / 365)
    (hdoy : doy = doe - (365 * yoe + yoe / 4 - yoe / 100))
    (hmp : mp = (5 * doy + 2) / 153)
    (hm1 : m1 = mp + (if mp < 10 then 3 else -9))
    (hd1 : d1 = doy - (153 * mp + 2) / 5 + 1)
    (hy1 : y1 = if m1 <= 2 then yoe + era * 400 + 1 else yoe + era * 400) :
    1 ≤ m1 ∧ m1 ≤ 12 ∧ 1 ≤ d1 ∧ d1 ≤ daysInMonth y1 m1 := by
  have hdoeB : 0 ≤ doe ∧ doe ≤ 146096 := by
    clear hm1 hd1 hy1 hyoe hdoy hmp
    omega
  have hdoyB := doy_refined doe yoe doy hdoeB hyoe hdoy
  have hyoeB : 0 ≤ yoe ∧ yoe ≤ 399 := by
    clear hm1 hd1 hy1 hera hdoe hdoy hmp
    omega
  have hmpB : 0 ≤ mp ∧ mp ≤ 11 := by
    clear hm1 hd1 hy1 hera hdoe hyoe
    omega
  have hmB : 1 ≤ m1 ∧ m1 ≤ 12 := by
    rw [hm1]
    split_ifs <;> omega
  have hdlB : 1 ≤ d1 := by
    clear hm1 hy1 hera hdoe hyoe
    omega
  refine ⟨hmB.1, hmB.2, hdlB, ?_⟩
  by_cases hfeb : mp = 11
  · subst hfeb
    have hm2 : m1 = 2 := by rw [hm1]; norm_num
    have hy2 : y1 = yoe + era * 400 + 1 := by rw [hy1, hm2]; norm_num
    have hd2 : d1 = doy - 337 + 1 := by rw [hd1]; norm_num
    rw [hm2]
    exact feb_len yoe era y1 d1 doy hy2 ⟨hdoyB.2.1, hdoyB.2.2⟩ hd2
  · have hmpU : mp ≤ 10 := by omega
    have hlen := month_len_table mp m1 y1 hmpB.1 hmpU hm1
    have hup : doy < (153 * (mp + 1) + 2) / 5 := by
      clear hm1 hd1 hy1 hera hdoe hyoe hlen
      omega
    omega

/-- The civil date produced by `civilFromDays` is calendar-valid. -/
theorem cfd_valid (z : Int) :
    1 ≤ (civilFromDays z).2.1 ∧ (civilFromDays z).2.1 ≤ 12 ∧
      1 ≤ (civilFromDays z).2.2 ∧
      (civilFromDays z).2.2 ≤ daysInMonth (civilFromDays z).1 (civilFromDays z).2.1 := by
  have h := cfd_valid_core z _ _ _ _ _ _ _ _ rfl rfl rfl rfl rfl rfl rfl rfl
  unfold civilFromDays
  dsimp only
  exact h

/-- `daysFromCivil` is linear in the day argument. -/
theorem dfc_add_day (y m d : Int) :
    daysFromCivil y m d = daysFromCivil y m 1 + (d - 1) := by
  unfold daysFromCivil
  dsimp only
  split_ifs <;> omega

/-- Every month has at least one day. -/
theorem daysInMonth_pos (y m : Int) : 1 ≤ daysInMonth y m := by
  unfold daysInMonth
  split_ifs <;> omega

/-- Stepping one month forward in `daysFromCivil`. -/
theorem dfc_next (y m : Int) (h1 : 1 ≤ m) (h2 : m ≤ 12) :
    daysFromCivil y m (daysInMonth y m + 1) =
      if m = 12 then daysFromCivil (y + 1) 1 1 else daysFromCivil y (m + 1) 1 := by
  unfold daysFromCivil daysInMonth
  dsimp only
  interval_cases m <;> split_ifs <;> omega

/-! ## Month indexing -/

/-- Day number of the first day of the month a day lies in (what the
repository computes as `date - day0` in `beginning_of_month`). -/
def bomDay (z : Int) : Int := z - ((civilFromDays z).2.2 - 1)

/-- Linear month index `12 * year + (month - 1)` of the month a day lies
in. -/
def monthIdx (z : Int) : Int :=
  12 * (civilFromDays z).1 + (civilFromDays z).2.1 - 1

/-- Day number of the first day of the month with linear index `k`. -/
def monthStartDay (k : Int) : Int := daysFromCivil (k / 12) (k % 12 + 1) 1

/-- The first-of-month day of `z` is the start of `z`'s month. -/
theorem bomDay_eq (z : Int) : bomDay z = monthStartDay (monthIdx z) := by
  have hv := cfd_valid z
  have h1 := daysFromCivil_civilFromDays z
  unfold bomDay monthStartDay monthIdx
  have e1 : (12 * (civilFromDays z).1 + (civilFromDays z).2.1 - 1) / 12 = (civilFromDays z).1 := by
    omega
  have e2 : (12 * (civilFromDays z).1 + (civilFromDays z).2.1 - 1) % 12 + 1 = (civilFromDays z).2.1 := by
    omega
  rw [e1, e2]
  have h2 := dfc_add_day (civilFromDays z).1 (civilFromDays z).2.1 (civilFromDays z).2.2
  omega

theorem bomDay_le (z : Int) : bomDay z ≤ z := by
  have hv := cfd_valid z
  unfold bomDay
  omega

/-- The month index of a month start is the index it was built from. -/
theorem monthIdx_monthStartDay (k : Int) : monthIdx (monthStartDay k) = k := by
  unfold monthIdx monthStartDay
  rw [civilFromDays_daysFromCivil (k / 12) (k % 12 + 1) 1 ⟨by omega, by omega⟩ le_rfl
    (daysInMonth_pos _ _)]
  dsimp only
  omega

/-- Stepping the month start by one index adds the month length. -/
theorem monthStartDay_succ (k : Int) :
    monthStartDay (k + 1) = monthStartDay k + daysInMonth (k / 12) (k % 12 + 1) := by
  have h := dfc_next (k / 12) (k % 12 + 1) (by omega) (by omega)
  have hlin := dfc_add_day (k / 12) (k % 12 + 1) (daysInMonth (k / 12) (k % 12 + 1) + 1)
  unfold monthStartDay
  by_cases hk : k % 12 = 11
  · rw [if_pos (by omega)] at h
    have e1 : (k + 1) / 12 = k / 12 + 1 := by omega
    have e2 : (k + 1) % 12 + 1 = 1 := by omega
    rw [e1, e2]
    omega
  · rw [if_neg (by omega)] at h
    have e1 : (k + 1) / 12 = k / 12 := by omega
    have e2 : (k + 1) % 12 + 1 = k % 12 + 1 + 1 := by omega
    rw [e1, e2]
    omega

theorem monthStartDay_lt_succ (k : Int) : monthStartDay k < monthStartDay (k + 1) := by
  have h := monthStartDay_succ k
  have h2 := daysInMonth_pos (k / 12) (k % 12 + 1)
  omega

theorem monthStartDay_mono {k k' : Int} (h : k ≤ k') :
    monthStartDay k ≤ monthStartDay k' := by
  refine @Int.le_induction (fun n => monthStartDay k ≤ monthStartDay n) k ?_ ?_ k' h
  · exact le_rfl
  · intro n _ ih
    have := monthStartDay_lt_succ n
    omega

theorem monthStartDay_strict {k k' : Int} (h : k < k') :
    monthStartDay k < monthStartDay k' := by
  have h1 := monthStartDay_lt_succ k
  have h2 := monthStartDay_mono (show k + 1 ≤ k' by omega)
  omega

/-- Every day lies between the start of its month and the start of the
next month. -/
theorem monthIdx_locate (z : Int) :
    monthStartDay (monthIdx z) ≤ z ∧ z < monthStartDay (monthIdx z + 1) := by
  have hv := cfd_valid z
  have hb := bomDay_eq z
  have hbl := bomDay_le z
  constructor
  · omega
  · have hs := monthStartDay_succ (monthIdx z)
    have e1 : (monthIdx z) / 12 = (civilFromDays z).1 := by
      unfold monthIdx
      omega
    have e2 : (monthIdx z) % 12 + 1 = (civilFromDays z).2.1 := by
      unfold monthIdx
      omega
    rw [e1, e2] at hs
    unfold bomDay at hb
    omega

/-- Bracketing characterisation of the month index. -/
theorem monthStartDay_le_iff (k z : Int) :
    monthStartDay k ≤ z ↔ k ≤ monthIdx z := by
  constructor
  · intro h
    by_contra hc
    have h1 : monthIdx z + 1 ≤ k := by omega
    have h2 := monthStartDay_mono h1
    have h3 := (monthIdx_locate z).2
    omega
  · intro h
    have h1 := monthStartDay_mono h
    have h2 := (monthIdx_locate z).1
    omega

theorem lt_monthStartDay_iff (z k : Int) :
    z < monthStartDay k ↔ monthIdx z < k := by
  constructor
  · intro h
    by_contra hc
    have := (monthStartDay_le_iff k z).2 (by omega)
    omega
  · intro h
    by_contra hc
    have := (monthStartDay_le_iff k z).1 (by omega)
    omega

theorem monthIdx_mono {z z' : Int} (h : z ≤ z') : monthIdx z ≤ monthIdx z' := by
  refine (monthStartDay_le_iff _ _).1 ?_
  have := (monthIdx_locate z).1
  omega

/-- The day before a month start lies in the previous month. -/
theorem monthIdx_pred (k : Int) : monthIdx (monthStartDay k - 1) = k - 1 := by
  have h1 : monthStartDay (k - 1) ≤ monthStartDay k - 1 := by
    have := monthStartDay_strict (show k - 1 < k by omega)
    omega
  have h2 := (monthStartDay_le_iff (k - 1) (monthStartDay k - 1)).1 h1
  have h3 := (lt_monthStartDay_iff (monthStartDay k - 1) k).1 (by omega)
  omega

/-- First-of-month of the day before a month start. -/
theorem bomDay_pred (k : Int) :
    bomDay (monthStartDay k - 1) = monthStartDay (k - 1) := by
  rw [bomDay_eq, monthIdx_pred]

/-! ## Instants with a fixed UTC offset

`chrono::DateTime<FixedOffset>` is embedded as the Unix second count of
the instant together with the offset in seconds.  `DateTime` comparison in
chrono is comparison of instants, i.e. of `secs`; `Date<FixedOffset>`
comparison (used by the fixed-window aggregates through `.date()`) is
comparison of local calendar dates, i.e. of `localDay`.  Sub-second
precision plays no role in the embedded code paths: every decoded entry
has whole-second precision and every derived anchor is a midnight. -/

structure DT where
  secs : Int
  offset : Int
deriving DecidableEq, Repr

namespace DT

def localSecs (dt : DT) : Int := dt.secs + dt.offset

/-- Day number (since 1970-01-01) of the local calendar date underlying
chrono's `date()`. -/
def localDay (dt : DT) : Int := dt.localSecs / 86400

/-- Local midnight of day `day` at offset `off`
(`date.and_hms_nano(0, 0, 0, 0)` for a date already at that offset). -/
def ofDayOffset (day off : Int) : DT := ⟨day * 86400 - off, off⟩

/-- `dt - Duration::days(n)` (with `with_timezone(dt.offset())`, which is
the identity here). -/
def subDays (dt : DT) (n : Int) : DT := ⟨dt.secs - n * 86400, dt.offset⟩

theorem localDay_ofDayOffset (day off : Int) : (ofDayOffset day off).localDay = day := by
  unfold localDay ofDayOffset localSecs
  dsimp only
  omega

theorem localDay_mul_le (dt : DT) : dt.localDay * 86400 ≤ dt.localSecs := by
  unfold localDay
  omega

theorem localDay_subDays (dt : DT) (n : Int) :
    (dt.subDays n).localDay = dt.localDay - n := by
  unfold localDay subDays localSecs
  dsimp only
  omega

end DT

/-! ## Record codec (`src/daily_score.rs`)

Strings are processed as their character lists.  Rust's `str::trim`
(Unicode whitespace) is embedded for the ASCII whitespace characters,
which are the only ones the codec itself ever produces. -/

def JOURNAL_SEPARATOR : Char := '|'

/-- Modelled from the spec: the constant `TAGS_SEPARATOR` referenced by
`daily_score.rs` is declared outside the provided sources; per the spec
the tag separator is the single character `","`, as also pinned by the
repository's own unit tests (`"games,run"`). -/
def TAGS_SEPARATOR : String := ","

def isWs (c : Char) : Bool := c = ' ' || c = '\t' || c = '\n' || c = '\r'

def trim (s : List Char) : List Char :=
  ((s.dropWhile isWs).reverse.dropWhile isWs).reverse

/-- First occurrence of the spaced separator `" |"`: returns the part
before it and the remainder after it (Rust `str::find` on the pattern). -/
def findSpacedSep : List Char → Option (List Char × List Char)
  | [] => none
  | c :: rest =>
    if c = ' ' ∧ rest.head? = some '|' then some ([], rest.tail)
    else (findSpacedSep rest).map (fun p => (c :: p.1, p.2))

/-- Rust `str::splitn(n, " |")`: split on at most `n - 1` occurrences of
the spaced separator; the final part is the verbatim remainder. -/
def splitn : Nat → List Char → List (List Char)
  | 0, _ => []
  | 1, s => [s]
  | n + 2, s =>
    match findSpacedSep s with
    | none => [s]
    | some (pre, post) => pre :: splitn (n + 1) post

def decChar : Nat → Char
  | 0 => '0' | 1 => '1' | 2 => '2' | 3 => '3' | 4 => '4'
  | 5 => '5' | 6 => '6' | 7 => '7' | 8 => '8' | _ => '9'

def digit? (c : Char) : Option Nat :=
  if c = '0' then some 0 else if c = '1' then some 1 else if c = '2' then some 2
  else if c = '3' then some 3 else if c = '4' then some 4 else if c = '5' then some 5
  else if c = '6' then some 6 else if c = '7' then some 7 else if c = '8' then some 8
  else if c = '9' then some 9 else none

/-- Decimal digits of `n`, most significant first (fuel-based so that the
kernel can evaluate it; the fuel `n + 1` always suffices). -/
def natCharsAux : Nat → Nat → List Char → List Char
  | 0, _, acc => acc
  | fuel + 1, n, acc =>
    if n < 10 then decChar n :: acc
    else natCharsAux fuel (n / 10) (decChar (n % 10) :: acc)

def natChars (n : Nat) : List Char := natCharsAux (n + 1) n []

/-- Decimal rendering of an `i8` value (Rust `Display`). -/
def intChars (i : Int) : List Char :=
  if i < 0 then '-' :: natChars i.natAbs else natChars i.natAbs

def pad2N (n : Nat) : List Char := [decChar (n / 10), decChar (n % 10)]

def pad4N (n : Nat) : List Char :=
  [decChar (n / 1000), decChar (n / 100 % 10), decChar (n / 10 % 10), decChar (n % 10)]

/-- Greedily read up to `width` decimal digits. -/
def takeDigits : Nat → List Char → (List Nat × List Char)
  | 0, s => ([], s)
  | _ + 1, [] => ([], [])
  | n + 1, c :: rest =>
    match digit? c with
    | some v =>
      let p := takeDigits n rest
      (v :: p.1, p.2)
    | none => ([], c :: rest)

def digitsToNat (ds : List Nat) : Nat := ds.foldl (fun a d => a * 10 + d) 0

/-- Parse a count of at least one, at most `width` digits. -/
def parseNumUpTo (width : Nat) (s : List Char) : Option (Nat × List Char) :=
  match takeDigits width s with
  | ([], _) => none
  | (ds, r) => some (digitsToNat ds, r)

def expectChar (c : Char) : List Char → Option (List Char)
  | x :: rest => if x = c then some rest else none
  | [] => none

def skipWs (s : List Char) : List Char := s.dropWhile isWs

/-- `%z`: sign, two-digit hours, optional colon, two-digit minutes. -/
def parseTz : List Char → Option (Int × List Char)
  | [] => none
  | c :: rest =>
    let sign : Option Int := if c = '+' then some 1 else if c = '-' then some (-1) else none
    match sign with
    | none => none
    | some sg =>
      match takeDigits 2 rest with
      | ([h1, h2], r1) =>
        let r2 := if r1.head? = some ':' then r1.tail else r1
        match takeDigits 2 r2 with
        | ([m1, m2], r3) =>
          some (sg * (((h1 * 10 + h2) * 3600 : Nat) + (m1 * 10 + m2) * 60 : Nat), r3)
        | _ => none
      | _ => none

/-- `DateTime::parse_from_str` with format `"%Y-%m-%d %H:%M:%S %z"`
(four-digit nonnegative years; a `Space` item matches any run of
whitespace; trailing input or an invalid calendar date, time of day or
offset is rejected, as chrono's `Parsed::to_datetime` does). -/
def parseDateTime (s : List Char) : Option DT :=
  match parseNumUpTo 4 s with
  | none => none
  | some (y, r1) =>
    match expectChar '-' r1 with
    | none => none
    | some r2 =>
      match parseNumUpTo 2 r2 with
      | none => none
      | some (mo, r3) =>
        match expectChar '-' r3 with
        | none => none
        | some r4 =>
          match parseNumUpTo 2 r4 with
          | none => none
          | some (d, r5) =>
            match parseNumUpTo 2 (skipWs r5) with
            | none => none
            | some (h, r6) =>
              match expectChar ':' r6 with
              | none => none
              | some r7 =>
                match parseNumUpTo 2 r7 with
                | none => none
                | some (mi, r8) =>
                  match expectChar ':' r8 with
                  | none => none
                  | some r9 =>
                    match parseNumUpTo 2 r9 with
                    | none => none
                    | some (sec, r10) =>
                      match parseTz (skipWs r10) with
                      | none => none
                      | some (off, r11) =>
                        if r11 = [] ∧ 1 ≤ mo ∧ mo ≤ 12 ∧ 1 ≤ d ∧
                            (d : Int) ≤ daysInMonth (y : Int) (mo : Int) ∧
                            h ≤ 23 ∧ mi ≤ 59 ∧ sec ≤ 59 ∧ off < 86400 ∧ -86400 < off then
                          some ⟨daysFromCivil (y : Int) (mo : Int) (d : Int) * 86400 +
                            ((h : Int) * 3600 + (mi : Int) * 60 + (sec : Int)) - off, off⟩
                        else none

/-- Formatting with `"%Y-%m-%d %H:%M:%S %z"` (chrono `format`): civil
local date, local time of day, and the offset as `±HHMM`. -/
def formatDateTime (dt : DT) : List Char :=
  let day := dt.localDay
  let c := civilFromDays day
  let sod := dt.localSecs % 86400
  pad4N c.1.toNat ++ '-' :: pad2N c.2.1.toNat ++ '-' :: pad2N c.2.2.toNat ++
    ' ' :: pad2N (sod / 3600).toNat ++ ':' :: pad2N (sod % 3600 / 60).toNat ++
    ':' :: pad2N (sod % 60).toNat ++
    ' ' :: (if dt.offset < 0 then '-' else '+') ::
      (pad2N (dt.offset.natAbs / 3600) ++ pad2N (dt.offset.natAbs % 3600 / 60))

/-- Lexicographic comparison of strings (Rust `str` ordering; on UTF-8 the
byte order agrees with the code point order). -/
def charsLe : List Char → List Char → Bool
  | [], _ => true
  | _ :: _, [] => false
  | a :: as, b :: bs => if a = b then charsLe as bs else decide (a < b)

def strLe (s t : String) : Bool := charsLe s.data t.data

/-- Insert into a sorted list (ascending by `strLe`). -/
def insertSorted (x : String) : List String → List String
  | [] => [x]
  | y :: ys => if strLe x y then x :: y :: ys else y :: insertSorted x ys

/-- Ascending lexicographic sort (the result of Rust's
`sort_unstable`, embedded as an insertion sort so that the kernel can
evaluate it). -/
def sortStrings (l : List String) : List String := l.foldr insertSorted []

/-- Join with the tag separator `,` (Rust `Vec::join(TAGS_SEPARATOR)`). -/
def joinComma : List (List Char) → List Char
  | [] => []
  | [t] => t
  | t :: ts => t ++ ',' :: joinComma ts

/-- Rust `str::split(c)`: always at least one (possibly empty) part. -/
def splitChar (c : Char) : List Char → List (List Char)
  | [] => [[]]
  | x :: rest =>
    if x = c then [] :: splitChar c rest
    else
      match splitChar c rest with
      | p :: ps => (x :: p) :: ps
      | [] => [[x]]

/-- `DailyScore` from `src/daily_score.rs`.  `tags: HashSet<String>` is
embedded as the list of its elements (set operations `contains`, `iter`
and insertion-collapsing are membership-based throughout). -/
structure DailyScore where
  score : Int
  tags : List String
  comment : Option String
  datetime : DT
deriving DecidableEq, Repr

inductive ParseError where
  | MissingDateTime : ParseError
  | InvalidDateTime : String → ParseError
  | MissingScore : ParseError
  | InvalidScore : String → ParseError
deriving DecidableEq, Repr

/-- Rust `Result`. -/
inductive RResult (ε α : Type) where
  | err : ε → RResult ε α
  | ok : α → RResult ε α
deriving DecidableEq, Repr

namespace DailyScore

/-- `DailyScore::tags_string`: tags sorted lexicographically, joined with
the tag separator. -/
def tags_string (ds : DailyScore) : List Char :=
  joinComma ((sortStrings ds.tags).map String.data)

/-- `DailyScore::to_s`. -/
def to_s (ds : DailyScore) : String :=
  let comment_string : List Char :=
    match ds.comment with
    | some c => ' ' :: c.data
    | none => []
  ⟨formatDateTime ds.datetime ++ [' ', JOURNAL_SEPARATOR, ' '] ++ intChars ds.score ++
    [' ', JOURNAL_SEPARATOR, ' '] ++ ds.tags_string ++ [' ', JOURNAL_SEPARATOR] ++
    comment_string⟩

def digitsValAux : Nat → List Char → Option Nat
  | acc, [] => some acc
  | acc, c :: rest =>
    match digit? c with
    | some v => digitsValAux (acc * 10 + v) rest
    | none => none

def allDigitsVal : List Char → Option Nat
  | [] => none
  | s => digitsValAux 0 s

/-- Rust `str::parse::<i8>`: optional sign, at least one digit, value in
the signed 8-bit range. -/
def parse_i8 (s : List Char) : Option Int :=
  match s with
  | [] => none
  | c :: rest =>
    if c = '+' then
      (allDigitsVal rest).bind (fun n => if n ≤ 127 then some (n : Int) else none)
    else if c = '-' then
      (allDigitsVal rest).bind (fun n => if n ≤ 128 then some (-(n : Int)) else none)
    else (allDigitsVal (c :: rest)).bind (fun n => if n ≤ 127 then some (n : Int) else none)

/-- `DailyScore::parse`. -/
def parse (daily_score_string : String) : RResult ParseError DailyScore :=
  let parts := (splitn 4 daily_score_string.data).map trim
  match parts with
  | [] => .err .MissingDateTime
  | datetime_str :: rest =>
    match parseDateTime datetime_str with
    | none => .err (.InvalidDateTime ⟨datetime_str⟩)
    | some datetime =>
      match rest with
      | [] => .err .MissingScore
      | score_str :: rest2 =>
        match parse_i8 score_str with
        | none => .err (.InvalidScore ⟨score_str⟩)
        | some score =>
          let tags_str := rest2.headD []
          let tags : List String :=
            if tags_str = [] then [] else (splitChar ',' tags_str).map String.mk
          let comment : Option String := (rest2.drop 1).head?.map String.mk
          .ok ⟨score, tags, comment, datetime⟩

end DailyScore

/-! ## Report engine (`src/mood_report.rs`) -/

def HOUR_SECONDS : Int := 3600
def DAY_SECONDS : Int := HOUR_SECONDS * 24
def WEEK_SECONDS : Int := DAY_SECONDS * 7

/-- `MoodReport` holds the decoded entries and the tag filter.  Every
aggregate additionally receives the current instant `now`
(`Local::now()` with its fixed offset), threaded explicitly. -/
structure MoodReport where
  daily_scores : List DailyScore
  tags : List String

namespace MoodReport

/-- The tag filter inside the aggregates:
`self.tags.iter().all(|tag| daily_score.tags.contains(tag))`. -/
def passesTags (mr : MoodReport) (daily_score : DailyScore) : Bool :=
  mr.tags.all (fun tag => daily_score.tags.contains tag)

/-- `MoodReport::filter_mood_sum`. -/
def filter_mood_sum (mr : MoodReport) (filter_fn : DailyScore → Bool) : Int :=
  (((mr.daily_scores.filter filter_fn).filter mr.passesTags).map DailyScore.score).sum

/-- `MoodReport::thirty_days_mood`. -/
def thirty_days_mood (mr : MoodReport) (now : DT) : Int :=
  let thirty_days_ago := now.subDays 29
  mr.filter_mood_sum (fun daily_score =>
    decide (thirty_days_ago.localDay ≤ daily_score.datetime.localDay))

/-- `MoodReport::yearly_mood`. -/
def yearly_mood (mr : MoodReport) (now : DT) : Int :=
  let usual_year_ago := now.subDays 364
  mr.filter_mood_sum (fun daily_score =>
    decide (usual_year_ago.localDay ≤ daily_score.datetime.localDay))

/-- `MoodReport::timeframed_moving_mood_report`.  The frames are
processed for `frame_ends_at_days_ago` descending from
`starts_at_days_ago` to `ends_at_days_ago`; both samplings of the clock
inside the loop refer to the same injected `now`. -/
def timeframed_moving_mood_report (mr : MoodReport)
    (starts_at_days_ago ends_at_days_ago frame_size : Nat) (now : DT) : List (Int × Int) :=
  ((List.range' ends_at_days_ago (starts_at_days_ago + 1 - ends_at_days_ago)).reverse).map
    (fun frame_ends_at_days_ago =>
      let frame_end := now.subDays frame_ends_at_days_ago
      let frame_start := frame_end.subDays frame_size
      (now.secs - (frame_ends_at_days_ago : Int) * DAY_SECONDS,
        mr.filter_mood_sum (fun daily_score =>
          decide (frame_start.localDay ≤ daily_score.datetime.localDay) &&
            decide (daily_score.datetime.localDay ≤ frame_end.localDay))))

/-- `MoodReport::thirty_days_moving_mood`. -/
def thirty_days_moving_mood (mr : MoodReport) (now : DT) : List (Int × Int) :=
  mr.timeframed_moving_mood_report 29 0 29 now

/-- Body of the entry loop of `iterative_const_period_report`.  The
`usize::try_from` guard fails exactly for negative indices on the 64-bit
platforms the program targets; `data.resize_with` back-fills the indices
`data.len() .. i` with `(report_end - k * period, 0)`. -/
def icprStep (report_ends_at : DT) (period : Int) (data : List (Int × Int))
    (daily_score : DailyScore) : List (Int × Int) :=
  let seconds_before_report_end := report_ends_at.secs - daily_score.datetime.secs
  let i_i64 := (seconds_before_report_end - 1).tdiv period
  if i_i64 < 0 then data
  else
    let i := i_i64.toNat
    let seconds_to_next_period := seconds_before_report_end.tmod period
    let data2 :=
      if data.length ≤ i then
        data ++ (List.range' data.length (i + 1 - data.length)).map
          (fun (k : Nat) => (report_ends_at.secs - (k : Int) * period, (0 : Int)))
      else data
    data2.set i (daily_score.datetime.secs + seconds_to_next_period,
      (data2.getD i (0, 0)).2 + daily_score.score)

/-- `MoodReport::iterative_const_period_report`. -/
def iterative_const_period_report (mr : MoodReport) (report_ends_at : DT) (period : Int) :
    List (Int × Int) :=
  let filtered := (mr.daily_scores.filter mr.passesTags).filter
    (fun daily_score => decide (daily_score.datetime.secs < report_ends_at.secs))
  (filtered.foldl (icprStep report_ends_at period) []).reverse

/-- `MoodReport::iterative_weekly_mood`: anchored at the most recent
Monday 00:00:00 local time (1970-01-01 was a Thursday, so
`num_days_from_monday = (day + 3) % 7`). -/
def iterative_weekly_mood (mr : MoodReport) (now : DT) : List (Int × Int) :=
  let today := now.localDay
  let last_monday := DT.ofDayOffset (today - (today + 3) % 7) now.offset
  mr.iterative_const_period_report last_monday WEEK_SECONDS

/-- `MoodReport::iterative_seven_days_mood`. -/
def iterative_seven_days_mood (mr : MoodReport) (now : DT) : List (Int × Int) :=
  let beginning_of_next_day := DT.ofDayOffset (now.localDay + 1) now.offset
  mr.iterative_const_period_report beginning_of_next_day WEEK_SECONDS

/-- `MoodReport::iterative_thirty_days_mood`. -/
def iterative_thirty_days_mood (mr : MoodReport) (now : DT) : List (Int × Int) :=
  let beginning_of_next_day := DT.ofDayOffset (now.localDay + 1) now.offset
  mr.iterative_const_period_report beginning_of_next_day (DAY_SECONDS * 30)

/-- `MoodReport::beginning_of_month`:
`datetime.date().and_hms_nano(0,0,0,0) - Duration::days(datetime.day0())`. -/
def beginning_of_month (datetime : DT) : DT :=
  DT.ofDayOffset (bomDay datetime.localDay) datetime.offset

/-- `MoodReport::beginning_of_previous_month`. -/
def beginning_of_previous_month (datetime : DT) : DT :=
  beginning_of_month (DT.ofDayOffset (datetime.localDay - 1) datetime.offset)

theorem bopm_secs_lt (dt : DT) : (beginning_of_previous_month dt).secs < dt.secs := by
  unfold beginning_of_previous_month beginning_of_month
  rw [DT.localDay_ofDayOffset]
  have h1 := bomDay_le (dt.localDay - 1)
  have h2 := DT.localDay_mul_le dt
  unfold DT.ofDayOffset
  dsimp only
  unfold DT.localSecs at h2
  omega

/-- Body of the entry loop of `iterative_monthly_mood`: entries on or
after the start of the current month are skipped; the earliest seen
entry instant is tracked; scores accumulate in the map keyed by the
timestamp of the first of the entry's month (`HashMap<i64, i32>` is
embedded as its lookup function with default `0`, matching
`entry(..).or_insert(0)` and `get(..).unwrap_or(&0)`). -/
def monthlyFold (beginning_of_current_month : DT) (st : DT × (Int → Int))
    (daily_score : DailyScore) : DT × (Int → Int) :=
  if beginning_of_current_month.secs ≤ daily_score.datetime.secs then st
  else
    let earliest := if daily_score.datetime.secs < st.1.secs then daily_score.datetime else st.1
    let key := (beginning_of_month daily_score.datetime).secs
    (earliest, fun k => if k = key then st.2 k + daily_score.score else st.2 k)

/-- The `while` loop of `iterative_monthly_mood`: walk backward one
month at a time while `beginning_of_month > stop`, pushing
`(bom.timestamp, scores[previous bom.timestamp])`. -/
def monthlyWalk (monthly_scores : Int → Int) (stop : Int) (bom : DT) : List (Int × Int) :=
  if stop < bom.secs then
    (bom.secs, monthly_scores (beginning_of_previous_month bom).secs) ::
      monthlyWalk monthly_scores stop (beginning_of_previous_month bom)
  else []
termination_by (bom.secs - stop).toNat
decreasing_by
  have := bopm_secs_lt bom
  omega

/-- `MoodReport::iterative_monthly_mood`.  Note: this aggregate never
consults `self.tags`. -/
def iterative_monthly_mood (mr : MoodReport) (now : DT) : List (Int × Int) :=
  let beginning_of_current_month := beginning_of_month now
  let st := mr.daily_scores.foldl (monthlyFold beginning_of_current_month)
    (now, fun _ => 0)
  (monthlyWalk st.2 (beginning_of_month st.1).secs beginning_of_current_month).reverse

end MoodReport

/-! ## Specification-side definitions and verification -/

/-! Spec-side definitions -/

/-- Spec: the fixed-window date test — the entry's calendar date is at
least today's date minus `days_back - 1`. -/
def inWindow (now : DT) (days_back : Int) (ds : DailyScore) : Bool :=
  decide (now.localDay - (days_back - 1) ≤ ds.datetime.localDay)

/-- Spec: tag-filtered sum of scores over the entries inside the window. -/
def specWindowSum (mr : MoodReport) (now : DT) (days_back : Int) : Int :=
  ((mr.daily_scores.filter (fun ds => inWindow now days_back ds && mr.passesTags ds)).map
    DailyScore.score).sum

/-- Spec: bucket index of an entry in the constant-period reports. -/
def bucketIdx (report_ends_at : DT) (period : Int) (ds : DailyScore) : Int :=
  (report_ends_at.secs - ds.datetime.secs - 1).tdiv period

/-! Walk unfolding helpers -/

theorem monthlyWalk_step (m : Int → Int) (stop : Int) (bom : DT) (h : stop < bom.secs) :
    MoodReport.monthlyWalk m stop bom =
      (bom.secs, m (MoodReport.beginning_of_previous_month bom).secs) ::
        MoodReport.monthlyWalk m stop (MoodReport.beginning_of_previous_month bom) := by
  conv_lhs => rw [MoodReport.monthlyWalk]
  rw [if_pos h]

theorem monthlyWalk_stop (m : Int → Int) (stop : Int) (bom : DT) (h : ¬ stop < bom.secs) :
    MoodReport.monthlyWalk m stop bom = [] := by
  conv_lhs => rw [MoodReport.monthlyWalk]
  rw [if_neg h]

/-! List helpers -/

theorem filter_idem {α : Type} (p : α → Bool) (l : List α) :
    (l.filter p).filter p = l.filter p := by
  rw [List.filter_filter]
  exact List.filter_congr (fun x _ => Bool.and_self _)

/-! C6 -/

theorem c6_helper (mr : MoodReport) (now : DT) (n : Int) :
    mr.filter_mood_sum (fun ds => decide ((now.subDays n).localDay ≤ ds.datetime.localDay)) =
      specWindowSum mr now (n + 1) := by
  unfold MoodReport.filter_mood_sum specWindowSum
  rw [List.filter_filter]
  refine congrArg _ (congrArg _ (List.filter_congr (fun ds _ => ?_)))
  rw [DT.localDay_subDays]
  unfold inWindow
  have : (n + 1 - 1) = n := by ring
  rw [this, Bool.and_comm]

/-- C6: the fixed-window sums are the tag-filtered sums over entries whose
calendar date is at least today minus `days_back - 1`, and the window test
includes the boundary day and excludes the day before it. -/
theorem c6_fixed_window (mr : MoodReport) (now : DT) :
    (mr.thirty_days_mood now = specWindowSum mr now 30 ∧
      mr.yearly_mood now = specWindowSum mr now 365) ∧
    (∀ ds : DailyScore,
      (ds.datetime.localDay = now.localDay - 29 → inWindow now 30 ds = true) ∧
      (ds.datetime.localDay = now.localDay - 30 → inWindow now 30 ds = false) ∧
      (ds.datetime.localDay = now.localDay - 364 → inWindow now 365 ds = true) ∧
      (ds.datetime.localDay = now.localDay - 365 → inWindow now 365 ds = false)) := by
  constructor
  · constructor
    · exact c6_helper mr now 29
    · exact c6_helper mr now 364
  · intro ds
    refine ⟨fun h => ?_, fun h => ?_, fun h => ?_, fun h => ?_⟩ <;>
      simp only [inWindow, decide_eq_true_eq, decide_eq_false_iff_not] <;> omega

theorem c6_witness :
    inWindow ⟨29 * 86400, 0⟩ 30 ⟨1, [], none, ⟨0, 0⟩⟩ = true :=
  ((c6_fixed_window ⟨[], []⟩ ⟨29 * 86400, 0⟩).2 ⟨1, [], none, ⟨0, 0⟩⟩).1 (by decide)

/-! C1 -/

theorem passesTags_iff (mr : MoodReport) (ds : DailyScore) :
    mr.passesTags ds = true ↔ ∀ t ∈ mr.tags, t ∈ ds.tags := by
  unfold MoodReport.passesTags
  simp [List.all_eq_true]

theorem filter_mood_sum_prefilter (mr : MoodReport) (p : DailyScore → Bool) :
    (MoodReport.mk (mr.daily_scores.filter mr.passesTags) []).filter_mood_sum p =
      mr.filter_mood_sum p := by
  unfold MoodReport.filter_mood_sum
  have hall : (MoodReport.mk (mr.daily_scores.filter mr.passesTags) []).passesTags =
      fun _ => true := by
    funext ds
    rfl
  dsimp only
  rw [hall, List.filter_true, List.filter_comm]

theorem icpr_prefilter (mr : MoodReport) (e : DT) (p : Int) :
    (MoodReport.mk (mr.daily_scores.filter mr.passesTags) []).iterative_const_period_report e p =
      mr.iterative_const_period_report e p := by
  unfold MoodReport.iterative_const_period_report
  have hall : (MoodReport.mk (mr.daily_scores.filter mr.passesTags) []).passesTags =
      fun _ => true := by
    funext ds
    rfl
  dsimp only
  rw [hall, List.filter_true]

/-- C1 (amended): the tag filter has subset (AND) semantics, and dropping
the entries that fail it (and clearing the filter) leaves all aggregates
except the monthly one unchanged — while `iterative_monthly_mood` ignores
the tag filter entirely. -/
theorem c1_tag_filter_amended :
    (∀ (mr : MoodReport) (ds : DailyScore),
        mr.passesTags ds = true ↔ ∀ t ∈ mr.tags, t ∈ ds.tags) ∧
    (∀ (mr : MoodReport) (now : DT),
        mr.thirty_days_mood now =
          (MoodReport.mk (mr.daily_scores.filter mr.passesTags) []).thirty_days_mood now ∧
        mr.yearly_mood now =
          (MoodReport.mk (mr.daily_scores.filter mr.passesTags) []).yearly_mood now ∧
        mr.thirty_days_moving_mood now =
          (MoodReport.mk (mr.daily_scores.filter mr.passesTags) []).thirty_days_moving_mood now ∧
        mr.iterative_weekly_mood now =
          (MoodReport.mk (mr.daily_scores.filter mr.passesTags) []).iterative_weekly_mood now ∧
        mr.iterative_seven_days_mood now =
          (MoodReport.mk (mr.daily_scores.filter mr.passesTags) []).iterative_seven_days_mood now ∧
        mr.iterative_thirty_days_mood now =
          (MoodReport.mk (mr.daily_scores.filter mr.passesTags) []).iterative_thirty_days_mood now) ∧
    (∀ (mr : MoodReport) (tags2 : List String) (now : DT),
        mr.iterative_monthly_mood now =
          (MoodReport.mk mr.daily_scores tags2).iterative_monthly_mood now) := by
  refine ⟨passesTags_iff, fun mr now => ?_, fun mr tags2 now => rfl⟩
  refine ⟨(filter_mood_sum_prefilter mr _).symm, (filter_mood_sum_prefilter mr _).symm, ?_,
    (icpr_prefilter mr _ _).symm, (icpr_prefilter mr _ _).symm, (icpr_prefilter mr _ _).symm⟩
  unfold MoodReport.thirty_days_moving_mood MoodReport.timeframed_moving_mood_report
  simp only [filter_mood_sum_prefilter]

theorem c1_witness :
    (MoodReport.mk [] ["t"]).passesTags ⟨1, ["t", "u"], none, ⟨0, 0⟩⟩ = true :=
  ((c1_tag_filter_amended.1 (MoodReport.mk [] ["t"]) ⟨1, ["t", "u"], none, ⟨0, 0⟩⟩).mpr
    (by decide))

/-- C1 counterexample: with tag filter `{"t"}` and a single untagged
February entry of score 5, the monthly aggregate still counts the entry
(sum 5, not 0), so the tag filter is not applied inside
`iterative_monthly_mood`. -/
theorem c1_counterexample :
    (MoodReport.mk [⟨5, [], some "", ⟨18769 * 86400, 0⟩⟩] ["t"]).iterative_monthly_mood
        ⟨18787 * 86400 + 15 * 3600, 0⟩ = [(18779 * 86400, 5)] ∧
      "t" ∈ ["t"] ∧ "t" ∉ (([] : List String)) := by
  refine ⟨?_, by decide, by decide⟩
  simp only [MoodReport.iterative_monthly_mood, List.foldl]
  norm_num [MoodReport.monthlyFold, MoodReport.beginning_of_month, DT.ofDayOffset,
    DT.localDay, DT.localSecs, bomDay, civilFromDays]
  rw [monthlyWalk_step _ _ _ (by norm_num [MoodReport.beginning_of_month, DT.ofDayOffset,
    DT.localDay, DT.localSecs, bomDay, civilFromDays])]
  rw [monthlyWalk_stop]
  · norm_num [MoodReport.beginning_of_previous_month, MoodReport.beginning_of_month,
      DT.ofDayOffset, DT.localDay, DT.localSecs, bomDay, civilFromDays]
  · norm_num [MoodReport.beginning_of_previous_month, MoodReport.beginning_of_month,
      DT.ofDayOffset, DT.localDay, DT.localSecs, bomDay, civilFromDays]

/-! C4 -/

theorem tdiv_eq_ediv_nn (a b : Int) (ha : 0 ≤ a) (hb : 0 ≤ b) : a.tdiv b = a / b := by
  obtain ⟨n, rfl⟩ := Int.eq_ofNat_of_zero_le ha
  obtain ⟨m, rfl⟩ := Int.eq_ofNat_of_zero_le hb
  rfl

theorem icpr_foldl_skip (e : DT) (p : Int) (l : List DailyScore) (data : List (Int × Int)) :
    l.foldl (MoodReport.icprStep e p) data =
      (l.filter (fun ds => decide (0 ≤ bucketIdx e p ds))).foldl (MoodReport.icprStep e p) data := by
  induction l generalizing data with
  | nil => rfl
  | cons ds rest ih =>
    by_cases h : 0 ≤ bucketIdx e p ds
    · rw [List.foldl_cons, List.filter_cons_of_pos (by simpa using h), List.foldl_cons]
      exact ih _
    · rw [List.foldl_cons, List.filter_cons_of_neg (by simpa using h)]
      have hstep : MoodReport.icprStep e p data ds = data := by
        unfold MoodReport.icprStep bucketIdx at *
        rw [if_pos (by omega)]
      rw [hstep]
      exact ih data

/-- C4 (amended): only entries strictly before the anchor are bucketed,
entries with a negative bucket index are discarded, the index is
`(elapsed - 1) / period` with truncating division, and an entry exactly
`k` periods before the anchor receives index `k - 1`, the more recent of
the two adjacent periods (the period that begins at the entry), not index
`k`. -/
theorem c4_amended :
    (∀ (mr : MoodReport) (e : DT) (p : Int),
        mr.iterative_const_period_report e p =
          (MoodReport.mk (mr.daily_scores.filter (fun ds => decide (ds.datetime.secs < e.secs)))
            mr.tags).iterative_const_period_report e p) ∧
    (∀ (mr : MoodReport) (e : DT) (p : Int),
        mr.iterative_const_period_report e p =
          (MoodReport.mk (mr.daily_scores.filter (fun ds => decide (0 ≤ bucketIdx e p ds)))
            mr.tags).iterative_const_period_report e p) ∧
    (∀ (e : DT) (p k : Int) (ds : DailyScore), 0 < p → 1 ≤ k →
        ds.datetime.secs = e.secs - k * p → bucketIdx e p ds = k - 1) := by
  refine ⟨fun mr e p => ?_, fun mr e p => ?_, fun e p k ds hp hk h => ?_⟩
  · unfold MoodReport.iterative_const_period_report
    have hpass : (MoodReport.mk
        (mr.daily_scores.filter (fun ds => decide (ds.datetime.secs < e.secs)))
        mr.tags).passesTags = mr.passesTags := rfl
    dsimp only
    rw [hpass]
    have hAB : (mr.daily_scores.filter mr.passesTags).filter
          (fun ds => decide (ds.datetime.secs < e.secs)) =
        ((mr.daily_scores.filter (fun ds => decide (ds.datetime.secs < e.secs))).filter
          mr.passesTags).filter (fun ds => decide (ds.datetime.secs < e.secs)) := by
      rw [List.filter_filter, List.filter_filter, List.filter_filter]
      refine List.filter_congr (fun x _ => ?_)
      cases h1 : mr.passesTags x <;> cases h2 : decide (x.datetime.secs < e.secs) <;>
        simp [h1, h2]
    rw [hAB]
  · unfold MoodReport.iterative_const_period_report
    have hpass : (MoodReport.mk
        (mr.daily_scores.filter (fun ds => decide (0 ≤ bucketIdx e p ds)))
        mr.tags).passesTags = mr.passesTags := rfl
    dsimp only
    rw [hpass, icpr_foldl_skip]
    have hAB : ((mr.daily_scores.filter mr.passesTags).filter
          (fun ds => decide (ds.datetime.secs < e.secs))).filter
            (fun ds => decide (0 ≤ bucketIdx e p ds)) =
        ((mr.daily_scores.filter (fun ds => decide (0 ≤ bucketIdx e p ds))).filter
          mr.passesTags).filter (fun ds => decide (ds.datetime.secs < e.secs)) := by
      rw [List.filter_filter, List.filter_filter, List.filter_filter, List.filter_filter]
      refine List.filter_congr (fun x _ => ?_)
      cases h1 : mr.passesTags x <;> cases h2 : decide (x.datetime.secs < e.secs) <;>
        cases h3 : decide (0 ≤ bucketIdx e p x) <;> simp [h1, h2, h3]
    rw [hAB]
  · unfold bucketIdx
    rw [h]
    have h1 : e.secs - (e.secs - k * p) - 1 = p - 1 + (k - 1) * p := by ring
    rw [h1, tdiv_eq_ediv_nn _ _ (by nlinarith) (by omega),
      Int.add_mul_ediv_right _ _ (by omega : p ≠ 0),
      Int.ediv_eq_zero_of_lt (by omega) (by omega)]
    ring

theorem c4_witness :
    bucketIdx ⟨1623024000, 0⟩ 604800 ⟨5, [], some "", ⟨1623024000 - 2 * 604800, 0⟩⟩ = 2 - 1 :=
  c4_amended.2.2 ⟨1623024000, 0⟩ 604800 2 ⟨5, [], some "", ⟨1623024000 - 2 * 604800, 0⟩⟩
    (by norm_num) (by norm_num) (by norm_num)

/-- C4 counterexample: an entry exactly two periods before the anchor is
attributed to bucket index 1 — the report has two buckets, with the
entry's score in the older of the two and the most recent bucket empty —
not to bucket index 2 as attribution to the chronologically earlier
period would produce (which would make three buckets). -/
theorem c4_counterexample :
    (MoodReport.mk [⟨5, [], some "", ⟨1623024000 - 2 * 604800, 0⟩⟩] []).iterative_const_period_report
        ⟨1623024000, 0⟩ 604800 =
      [(1623024000 - 2 * 604800, 5), (1623024000, 0)] := by
  decide

/-! C2 / C3 counterexamples -/

/-- C2 counterexample: encoding an entry whose comment is `None` and
decoding the result yields a comment `Some ""`, not `None`. -/
theorem c2_counterexample :
    DailyScore.parse (DailyScore.to_s ⟨1, [], none, ⟨1577855411, 14400⟩⟩) =
        .ok ⟨1, [], some "", ⟨1577855411, 14400⟩⟩ ∧
      (none : Option String) ≠ some "" := by
  exact ⟨by decide, by decide⟩

/-- C3 counterexample: with `now` at offset `+0000` (2020-03-15) and a
single included entry of score 5 dated 2020-02-10 at offset `+0200`, the
output pair keyed by the start of March (the month following February)
carries sum 0, not February's sum 5 — and the report is not limited to
the months from the oldest included entry's month either. -/
theorem c3_counterexample :
    (MoodReport.mk [⟨5, [], some "", ⟨18302 * 86400 + 12 * 3600 - 7200, 7200⟩⟩]
        []).iterative_monthly_mood ⟨18336 * 86400, 0⟩ =
        [(1580515200, 0), (1583020800, 0)] ∧
      (18302 * 86400 + 12 * 3600 - 7200 : Int) < 18322 * 86400 ∧
      monthIdx 18302 = monthIdx 18336 - 1 ∧
      monthStartDay (monthIdx 18302 + 1) * 86400 = 1583020800 := by
  refine ⟨?_, by norm_num, by decide, by decide⟩
  simp only [MoodReport.iterative_monthly_mood, List.foldl]
  norm_num [MoodReport.monthlyFold, MoodReport.beginning_of_month, DT.ofDayOffset,
    DT.localDay, DT.localSecs, bomDay, civilFromDays]
  rw [monthlyWalk_step _ _ _ (by norm_num [MoodReport.beginning_of_month, DT.ofDayOffset,
    DT.localDay, DT.localSecs, bomDay, civilFromDays])]
  rw [monthlyWalk_step _ _ _ (by norm_num [MoodReport.beginning_of_previous_month,
    MoodReport.beginning_of_month, DT.ofDayOffset, DT.localDay, DT.localSecs, bomDay,
    civilFromDays])]
  rw [monthlyWalk_stop]
  · norm_num [MoodReport.beginning_of_previous_month, MoodReport.beginning_of_month,
      DT.ofDayOffset, DT.localDay, DT.localSecs, bomDay, civilFromDays]
  · norm_num [MoodReport.beginning_of_previous_month, MoodReport.beginning_of_month,
      DT.ofDayOffset, DT.localDay, DT.localSecs, bomDay, civilFromDays]

/-! Helper lemmas about splitn -/

theorem splitn_ne_nil (n : Nat) (s : List Char) (h : 1 ≤ n) : splitn n s ≠ [] := by
  match n, s with
  | 1, s => simp [splitn]
  | n + 2, s =>
    unfold splitn
    cases findSpacedSep s <;> simp

/-- C10 part 1 -/
theorem parse_never_missing (s : String) :
    DailyScore.parse s ≠ .err .MissingDateTime := by
  unfold DailyScore.parse
  cases h : (splitn 4 s.data).map trim with
  | nil =>
    exact absurd (List.map_eq_nil_iff.mp h) (splitn_ne_nil 4 s.data (by omega))
  | cons d rest =>
    cases hdt : parseDateTime d with
    | none => simp [hdt]
    | some dt =>
      cases rest with
      | nil => simp [hdt]
      | cons sc rest2 =>
        cases hsc : DailyScore.parse_i8 sc with
        | none => simp [hdt, hsc]
        | some v => simp [hdt, hsc]

/-- C10 -/
theorem c10_missing_datetime_unreachable :
    (∀ s : String, DailyScore.parse s ≠ .err .MissingDateTime) ∧
      DailyScore.parse "" = .err (.InvalidDateTime "") := by
  exact ⟨parse_never_missing, by decide⟩

/-- C7 -/
theorem c7_decode_scenario :
    DailyScore.parse "2020-02-01 09:10:11 +0200 | 1 |  | foo || bar" =
      .ok ⟨1, [], some "foo || bar", ⟨1580541011, 7200⟩⟩ := by
  decide

/-- C8 general -/
theorem c8_invalid_score (s : String) (rawd rawsc : List Char) (rawrest : List (List Char))
    (dt : DT)
    (hsplit : splitn 4 s.data = rawd :: rawsc :: rawrest)
    (hd : parseDateTime (trim rawd) = some dt)
    (hsc : DailyScore.parse_i8 (trim rawsc) = none) :
    DailyScore.parse s = .err (.InvalidScore ⟨trim rawsc⟩) := by
  unfold DailyScore.parse
  rw [hsplit]
  simp only [List.map_cons]
  rw [hd, hsc]

theorem c8_witness :
    splitn 4 ("2020-02-01 09:10:11 +0000 | foo").data =
        ["2020-02-01 09:10:11 +0000".data, " foo".data] ∧
      DailyScore.parse "2020-02-01 09:10:11 +0000 | foo" = .err (.InvalidScore "foo") := by
  refine ⟨by decide, ?_⟩
  exact c8_invalid_score "2020-02-01 09:10:11 +0000 | foo" "2020-02-01 09:10:11 +0000".data
    " foo".data [] ⟨1580548211, 0⟩ (by decide) (by decide) (by decide)

/-- Spec: the entries an iterative constant-period report draws from —
those passing the tag filter and lying strictly before the anchor. -/
def icprEntries (mr : MoodReport) (e : DT) : List DailyScore :=
  (mr.daily_scores.filter mr.passesTags).filter
    (fun daily_score => decide (daily_score.datetime.secs < e.secs))

/-- Spec: sum of scores of the entries in bucket `k`. -/
def bucketSum (l : List DailyScore) (e : DT) (p : Int) (k : Nat) : Int :=
  ((l.filter (fun ds => decide (bucketIdx e p ds = (k : Int)))).map DailyScore.score).sum

/-- Spec: the last entry of the list landing in bucket `k`. -/
def bucketLast (l : List DailyScore) (e : DT) (p : Int) (k : Nat) : Option DailyScore :=
  (l.filter (fun ds => decide (bucketIdx e p ds = (k : Int)))).getLast?

/-- Spec: recorded end timestamp of bucket `k`: the gap-filling formula
`report_end - k * period` for an empty bucket, and
`entry.timestamp + (elapsed mod period)` of the last entry otherwise. -/
def bucketTs (l : List DailyScore) (e : DT) (p : Int) (k : Nat) : Int :=
  match bucketLast l e p k with
  | none => e.secs - (k : Int) * p
  | some ds => ds.datetime.secs + (e.secs - ds.datetime.secs).tmod p

/-- Spec: number of buckets — one per period back to the oldest entry. -/
def nBuckets (l : List DailyScore) (e : DT) (p : Int) : Nat :=
  l.foldl (fun acc ds => max acc ((bucketIdx e p ds).toNat + 1)) 0

/-- Spec: the bucket list in most-recent-first order. -/
def icprSpecState (l : List DailyScore) (e : DT) (p : Int) : List (Int × Int) :=
  (List.range (nBuckets l e p)).map (fun k => (bucketTs l e p k, bucketSum l e p k))

theorem bucketIdx_nonneg (e : DT) (p : Int) (ds : DailyScore)
    (hp : 0 < p) (h : ds.datetime.secs < e.secs) : 0 ≤ bucketIdx e p ds := by
  unfold bucketIdx
  rw [tdiv_eq_ediv_nn _ _ (by omega) (by omega)]
  exact Int.ediv_nonneg (by omega) (by omega)

theorem foldl_max_init_le (e : DT) (p : Int) (l : List DailyScore) (init : Nat) :
    init ≤ l.foldl (fun acc ds => max acc ((bucketIdx e p ds).toNat + 1)) init := by
  induction l generalizing init with
  | nil => exact le_rfl
  | cons a l ih => exact le_trans (le_max_left _ _) (ih _)

theorem nBuckets_bound_aux (e : DT) (p : Int) (l : List DailyScore) (init : Nat)
    (ds : DailyScore) (h : ds ∈ l) :
    (bucketIdx e p ds).toNat + 1 ≤
      l.foldl (fun acc ds => max acc ((bucketIdx e p ds).toNat + 1)) init := by
  induction l generalizing init with
  | nil => cases h
  | cons a l ih =>
    rcases List.mem_cons.mp h with rfl | h2
    · exact le_trans (le_max_right _ _) (foldl_max_init_le e p l _)
    · exact ih _ h2

theorem nBuckets_bound (e : DT) (p : Int) (l : List DailyScore) (ds : DailyScore)
    (h : ds ∈ l) : (bucketIdx e p ds).toNat + 1 ≤ nBuckets l e p :=
  nBuckets_bound_aux e p l 0 ds h

theorem nBuckets_append (e : DT) (p : Int) (l : List DailyScore) (ds : DailyScore) :
    nBuckets (l ++ [ds]) e p = max (nBuckets l e p) ((bucketIdx e p ds).toNat + 1) := by
  unfold nBuckets
  rw [List.foldl_append]
  rfl

theorem bucketSum_append (e : DT) (p : Int) (l : List DailyScore) (ds : DailyScore) (k : Nat) :
    bucketSum (l ++ [ds]) e p k =
      bucketSum l e p k + (if bucketIdx e p ds = (k : Int) then ds.score else 0) := by
  unfold bucketSum
  rw [List.filter_append]
  by_cases h : bucketIdx e p ds = (k : Int)
  · simp [h]
  · simp [h]

theorem bucketTs_append_eq (e : DT) (p : Int) (l : List DailyScore) (ds : DailyScore) (k : Nat)
    (h : bucketIdx e p ds = (k : Int)) :
    bucketTs (l ++ [ds]) e p k =
      ds.datetime.secs + (e.secs - ds.datetime.secs).tmod p := by
  unfold bucketTs bucketLast
  rw [List.filter_append]
  simp [h]

theorem bucketTs_append_ne (e : DT) (p : Int) (l : List DailyScore) (ds : DailyScore) (k : Nat)
    (h : ¬ bucketIdx e p ds = (k : Int)) :
    bucketTs (l ++ [ds]) e p k = bucketTs l e p k := by
  unfold bucketTs bucketLast
  rw [List.filter_append]
  simp [h]

theorem bucket_filter_nil (e : DT) (p : Int) (l : List DailyScore) (k : Nat)
    (hk : nBuckets l e p ≤ k) :
    l.filter (fun ds => decide (bucketIdx e p ds = (k : Int))) = [] := by
  rw [List.filter_eq_nil_iff]
  intro ds hds
  have hb := nBuckets_bound e p l ds hds
  simp only [decide_eq_true_eq]
  intro hc
  omega

theorem bucketSum_hi (e : DT) (p : Int) (l : List DailyScore) (k : Nat)
    (hk : nBuckets l e p ≤ k) : bucketSum l e p k = 0 := by
  unfold bucketSum
  rw [bucket_filter_nil e p l k hk]
  rfl

theorem bucketTs_hi (e : DT) (p : Int) (l : List DailyScore) (k : Nat)
    (hk : nBuckets l e p ≤ k) : bucketTs l e p k = e.secs - (k : Int) * p := by
  unfold bucketTs bucketLast
  rw [bucket_filter_nil e p l k hk]
  rfl

theorem icprSpecState_length (l : List DailyScore) (e : DT) (p : Int) :
    (icprSpecState l e p).length = nBuckets l e p := by
  unfold icprSpecState
  rw [List.length_map, List.length_range]

theorem icprSpecState_getElem (l : List DailyScore) (e : DT) (p : Int) (j : Nat)
    (h : j < (icprSpecState l e p).length) :
    (icprSpecState l e p)[j] = (bucketTs l e p j, bucketSum l e p j) := by
  unfold icprSpecState at *
  rw [List.getElem_map, List.getElem_range]

/-- Core step lemma: one `icprStep` transforms the spec state of the
processed prefix into the spec state of the prefix extended by the new
entry. -/
theorem icprStep_spec (e : DT) (p : Int) (hp : 0 < p) (s : List DailyScore) (ds : DailyScore)
    (hds : ds.datetime.secs < e.secs) :
    MoodReport.icprStep e p (icprSpecState s e p) ds = icprSpecState (s ++ [ds]) e p := by
  have hnn : 0 ≤ bucketIdx e p ds := bucketIdx_nonneg e p ds hp hds
  have hidx : bucketIdx e p ds = ((bucketIdx e p ds).toNat : Int) := by omega
  set i : Nat := (bucketIdx e p ds).toNat with hi
  have hlen := icprSpecState_length s e p
  have hn' : nBuckets (s ++ [ds]) e p = max (nBuckets s e p) (i + 1) :=
    nBuckets_append e p s ds
  have hlen2 := icprSpecState_length (s ++ [ds]) e p
  unfold MoodReport.icprStep
  dsimp only
  rw [if_neg (by unfold bucketIdx at hnn; omega)]
  have htoNat : ((e.secs - ds.datetime.secs - 1).tdiv p).toNat = i := by
    unfold bucketIdx at hi
    omega
  rw [htoNat]
  by_cases hcase : (icprSpecState s e p).length ≤ i
  · -- growth case
    rw [if_pos hcase]
    apply List.ext_getElem
    · simp only [List.length_set, List.length_append, List.length_map, List.length_range',
        icprSpecState_length, hn']
      omega
    · intro j h1 h2
      have hgrowlen : (icprSpecState s e p ++
          (List.range' (icprSpecState s e p).length (i + 1 - (icprSpecState s e p).length)).map
            (fun (k : Nat) => (e.secs - (k : Int) * p, (0 : Int)))).length = i + 1 := by
        simp only [List.length_append, List.length_map, List.length_range']
        omega
      rw [icprSpecState_getElem (s ++ [ds]) e p j h2]
      rw [List.getElem_set]
      by_cases hji : i = j
      · rw [if_pos hji]
        subst hji
        rw [bucketTs_append_eq e p s ds i (by omega), bucketSum_append e p s ds i,
          if_pos (show bucketIdx e p ds = (i : Int) by omega),
          bucketSum_hi e p s i (by omega)]
        rw [List.getD_eq_getElem _ _ (by omega), List.getElem_append_right (by omega),
          List.getElem_map]
      · rw [if_neg hji]
        rw [bucketTs_append_ne e p s ds j (by omega), bucketSum_append e p s ds j,
          if_neg (show ¬ bucketIdx e p ds = (j : Int) by omega), add_zero]
        by_cases hjn : j < nBuckets s e p
        · rw [List.getElem_append_left (by omega)]
          exact icprSpecState_getElem s e p j (by omega)
        · rw [List.getElem_append_right (by omega), List.getElem_map, List.getElem_range']
          rw [bucketTs_hi e p s j (by omega), bucketSum_hi e p s j (by omega)]
          have hj2 : (icprSpecState s e p).length +
              1 * (j - (icprSpecState s e p).length) = j := by omega
          rw [hj2]
  · -- in-place case
    rw [if_neg hcase]
    apply List.ext_getElem
    · simp only [List.length_set, icprSpecState_length, hn']
      omega
    · intro j h1 h2
      rw [icprSpecState_getElem (s ++ [ds]) e p j h2]
      rw [List.getElem_set]
      by_cases hji : i = j
      · rw [if_pos hji]
        subst hji
        rw [bucketTs_append_eq e p s ds i (by omega), bucketSum_append e p s ds i,
          if_pos (show bucketIdx e p ds = (i : Int) by omega)]
        rw [List.getD_eq_getElem _ _ (by omega), icprSpecState_getElem s e p i (by omega)]
      · rw [if_neg hji]
        rw [bucketTs_append_ne e p s ds j (by omega), bucketSum_append e p s ds j,
          if_neg (show ¬ bucketIdx e p ds = (j : Int) by omega), add_zero]
        exact icprSpecState_getElem s e p j (by omega)

theorem icpr_fold_spec (e : DT) (p : Int) (hp : 0 < p) :
    ∀ (l s : List DailyScore), (∀ ds ∈ l, ds.datetime.secs < e.secs) →
      l.foldl (MoodReport.icprStep e p) (icprSpecState s e p) = icprSpecState (s ++ l) e p := by
  intro l
  induction l with
  | nil =>
    intro s _
    rw [List.append_nil]
    rfl
  | cons a l ih =>
    intro s hall
    rw [List.foldl_cons, icprStep_spec e p hp s a (hall a (List.mem_cons_self a l)),
      ih (s ++ [a]) (fun ds hds => hall ds (List.mem_cons_of_mem a hds)),
      List.append_assoc]
    rfl

theorem icpr_characterization (mr : MoodReport) (e : DT) (p : Int) (hp : 0 < p) :
    mr.iterative_const_period_report e p = (icprSpecState (icprEntries mr e) e p).reverse := by
  have hall : ∀ ds ∈ icprEntries mr e, ds.datetime.secs < e.secs := by
    intro ds hds
    have h2 := (List.mem_filter.mp hds).2
    simpa using h2
  have hfold := icpr_fold_spec e p hp (icprEntries mr e) [] hall
  rw [List.nil_append] at hfold
  exact congrArg List.reverse hfold

theorem foldl_max_attained (e : DT) (p : Int) (l : List DailyScore) :
    ∀ init : Nat,
      l.foldl (fun acc ds => max acc ((bucketIdx e p ds).toNat + 1)) init = init ∨
      ∃ ds ∈ l, l.foldl (fun acc ds => max acc ((bucketIdx e p ds).toNat + 1)) init =
        (bucketIdx e p ds).toNat + 1 := by
  induction l with
  | nil =>
    intro init
    left
    rfl
  | cons a l ih =>
    intro init
    rcases ih (max init ((bucketIdx e p a).toNat + 1)) with h | ⟨ds, hds, h⟩
    · rw [List.foldl_cons]
      rcases Nat.le_total ((bucketIdx e p a).toNat + 1) init with hle | hle
      · left
        rw [h]
        omega
      · right
        exact ⟨a, List.mem_cons_self a l, by rw [h]; omega⟩
    · right
      exact ⟨ds, List.mem_cons_of_mem a hds, by rw [List.foldl_cons]; exact h⟩

theorem nBuckets_attained (e : DT) (p : Int) (l : List DailyScore) (h : l ≠ []) :
    ∃ ds ∈ l, (bucketIdx e p ds).toNat + 1 = nBuckets l e p := by
  rcases foldl_max_attained e p l 0 with h0 | ⟨ds, hds, heq⟩
  · exfalso
    obtain ⟨a, ha⟩ := List.exists_mem_of_ne_nil l h
    have hb := nBuckets_bound e p l a ha
    unfold nBuckets at hb
    omega
  · exact ⟨ds, hds, heq.symm⟩

/-- C5: the constant-period reports return, oldest bucket first, one bucket
per period back to the oldest contributing entry: bucket `k` (counting back
from the report end) carries the sum of the scores landing in it, with end
timestamp `report_end - k * period` when empty and
`entry.timestamp + (elapsed mod period)` of its last entry otherwise; the
weekly scenario with entries 1, 2 and 15 days before the most recent Monday
yields three buckets summing 4, 0, 5 oldest-first. -/
theorem c5_constant_period_buckets :
    (∀ (mr : MoodReport) (e : DT) (p : Int), 0 < p →
        mr.iterative_const_period_report e p =
          (icprSpecState (icprEntries mr e) e p).reverse) ∧
    (∀ (e : DT) (p : Int) (l : List DailyScore), l ≠ [] →
        ∃ ds ∈ l, (bucketIdx e p ds).toNat + 1 = nBuckets l e p) ∧
    (MoodReport.mk
        [⟨3, [], some "", ⟨18785 * 86400 - 2 * 86400, 0⟩⟩,
         ⟨-10, [], some "", ⟨18787 * 86400 + 15 * 3600 + 30 * 60, 0⟩⟩,
         ⟨4, [], some "", ⟨18785 * 86400 - 15 * 86400, 0⟩⟩,
         ⟨2, [], some "", ⟨18785 * 86400 - 86400, 0⟩⟩] []).iterative_weekly_mood
        ⟨18787 * 86400 + 15 * 3600 + 30 * 60, 0⟩ =
      [(18785 * 86400 - 2 * 604800, 4), (18785 * 86400 - 604800, 0), (18785 * 86400, 5)] :=
  ⟨fun mr e p hp => icpr_characterization mr e p hp,
   fun e p l h => nBuckets_attained e p l h,
   by decide⟩

theorem c5_constant_period_buckets_witness :
    (0 : Int) < 604800 ∧
      (MoodReport.mk [⟨5, [], some "", ⟨1623023991, 0⟩⟩] []).iterative_const_period_report
          ⟨1623024000, 0⟩ 604800 =
        (icprSpecState
          (icprEntries (MoodReport.mk [⟨5, [], some "", ⟨1623023991, 0⟩⟩] []) ⟨1623024000, 0⟩)
          ⟨1623024000, 0⟩ 604800).reverse :=
  ⟨by decide, c5_constant_period_buckets.1 _ _ 604800 (by decide)⟩

/-! ## C9: totality of the bucketing loop -/

/-- `icprStep` with every partial operation guarded: `none` signals an `i64`
division by zero or an out-of-bounds vector write, the two ways the Rust
loop body could fail after the `usize::try_from` range check. -/
def icprStepChecked (report_ends_at : DT) (period : Int)
    (data : Option (List (Int × Int))) (daily_score : DailyScore) :
    Option (List (Int × Int)) :=
  match data with
  | none => none
  | some data =>
    if period = 0 then none
    else
      let seconds_before_report_end := report_ends_at.secs - daily_score.datetime.secs
      let i_i64 := (seconds_before_report_end - 1).tdiv period
      if i_i64 < 0 then some data
      else
        let i := i_i64.toNat
        let seconds_to_next_period := seconds_before_report_end.tmod period
        let data2 :=
          if data.length ≤ i then
            data ++ (List.range' data.length (i + 1 - data.length)).map
              (fun (k : Nat) => (report_ends_at.secs - (k : Int) * period, (0 : Int)))
          else data
        if i < data2.length then
          some (data2.set i (daily_score.datetime.secs + seconds_to_next_period,
            (data2.getD i (0, 0)).2 + daily_score.score))
        else none

/-- `iterative_const_period_report` with the guarded loop body. -/
def iterative_const_period_report_checked (mr : MoodReport) (report_ends_at : DT)
    (period : Int) : Option (List (Int × Int)) :=
  let filtered := (mr.daily_scores.filter mr.passesTags).filter
    (fun daily_score => decide (daily_score.datetime.secs < report_ends_at.secs))
  (filtered.foldl (icprStepChecked report_ends_at period) (some [])).map List.reverse

def iterative_weekly_mood_checked (mr : MoodReport) (now : DT) :
    Option (List (Int × Int)) :=
  let today := now.localDay
  let last_monday := DT.ofDayOffset (today - (today + 3) % 7) now.offset
  iterative_const_period_report_checked mr last_monday WEEK_SECONDS

def iterative_seven_days_mood_checked (mr : MoodReport) (now : DT) :
    Option (List (Int × Int)) :=
  let beginning_of_next_day := DT.ofDayOffset (now.localDay + 1) now.offset
  iterative_const_period_report_checked mr beginning_of_next_day WEEK_SECONDS

def iterative_thirty_days_mood_checked (mr : MoodReport) (now : DT) :
    Option (List (Int × Int)) :=
  let beginning_of_next_day := DT.ofDayOffset (now.localDay + 1) now.offset
  iterative_const_period_report_checked mr beginning_of_next_day (DAY_SECONDS * 30)

theorem icprStepChecked_some (e : DT) (p : Int) (hp : p ≠ 0) (data : List (Int × Int))
    (ds : DailyScore) :
    icprStepChecked e p (some data) ds = some (MoodReport.icprStep e p data ds) := by
  unfold icprStepChecked MoodReport.icprStep
  dsimp only
  rw [if_neg hp]
  split_ifs with h1 h2 h3 <;>
    first
      | rfl
      | (exfalso
         simp only [List.length_append, List.length_map, List.length_range'] at *
         omega)

theorem icprChecked_fold (e : DT) (p : Int) (hp : p ≠ 0) (l : List DailyScore) :
    ∀ data : List (Int × Int),
      l.foldl (icprStepChecked e p) (some data) =
        some (l.foldl (MoodReport.icprStep e p) data) := by
  induction l with
  | nil =>
    intro data
    rfl
  | cons a l ih =>
    intro data
    rw [List.foldl_cons, List.foldl_cons, icprStepChecked_some e p hp data a, ih]

theorem icprChecked_eq (mr : MoodReport) (e : DT) (p : Int) (hp : p ≠ 0) :
    iterative_const_period_report_checked mr e p =
      some (mr.iterative_const_period_report e p) := by
  unfold iterative_const_period_report_checked MoodReport.iterative_const_period_report
  dsimp only
  rw [icprChecked_fold e p hp _ []]
  rfl

/-- C9: with every partial operation of the bucketing loop guarded, the
loop never fails for a nonzero period: the bucket index is range-checked
before the `usize` conversion and the vector is grown to cover the index
before the write, so the checked report equals `some` of the plain one,
and in particular the weekly, seven-day and thirty-day reports (whose
periods are the fixed positive constants) always succeed. -/
theorem c9_totality :
    (∀ (mr : MoodReport) (e : DT) (p : Int), p ≠ 0 →
        iterative_const_period_report_checked mr e p =
          some (mr.iterative_const_period_report e p)) ∧
    (∀ (mr : MoodReport) (now : DT),
        iterative_weekly_mood_checked mr now = some (mr.iterative_weekly_mood now) ∧
        iterative_seven_days_mood_checked mr now = some (mr.iterative_seven_days_mood now) ∧
        iterative_thirty_days_mood_checked mr now =
          some (mr.iterative_thirty_days_mood now)) :=
  ⟨fun mr e p hp => icprChecked_eq mr e p hp,
   fun mr now =>
    ⟨icprChecked_eq mr _ WEEK_SECONDS (by decide),
     icprChecked_eq mr _ WEEK_SECONDS (by decide),
     icprChecked_eq mr _ (DAY_SECONDS * 30) (by decide)⟩⟩

theorem c9_totality_witness :
    (250 : Int) ≠ 0 ∧
      iterative_const_period_report_checked (MoodReport.mk [⟨2, [], some "", ⟨100, 0⟩⟩] [])
          ⟨1000, 0⟩ 250 =
        some ((MoodReport.mk [⟨2, [], some "", ⟨100, 0⟩⟩] []).iterative_const_period_report
          ⟨1000, 0⟩ 250) :=
  ⟨by decide, c9_totality.1 _ _ 250 (by decide)⟩

/-- Spec: the entries the monthly aggregate draws from — those strictly
before the start of the current month. -/
def monthlyEntries (mr : MoodReport) (now : DT) : List DailyScore :=
  mr.daily_scores.filter
    (fun daily_score =>
      decide (daily_score.datetime.secs < (MoodReport.beginning_of_month now).secs))

/-- Spec: sum of the scores of the included entries whose local date lies
in the month with linear index `v`. -/
def monthSum (mr : MoodReport) (now : DT) (v : Int) : Int :=
  (((monthlyEntries mr now).filter
      (fun ds => decide (monthIdx ds.datetime.localDay = v))).map DailyScore.score).sum

/-- Sum of the scores of the included entries whose month-start instant is
`k` (the HashMap bucket with key `k`). -/
def keySum (mr : MoodReport) (now : DT) (k : Int) : Int :=
  (((monthlyEntries mr now).filter
      (fun ds => decide ((MoodReport.beginning_of_month ds.datetime).secs = k))).map
    DailyScore.score).sum

/-- Spec: the earliest included entry instant (`now` when there is none). -/
def earliestEntry (mr : MoodReport) (now : DT) : DT :=
  (monthlyEntries mr now).foldl
    (fun acc ds => if ds.datetime.secs < acc.secs then ds.datetime else acc) now

/-- Spec: the monthly report — oldest month first, one pair per month
from the earliest included entry's month up to the month before the
current one, each pair keyed by the local-midnight timestamp of the start
of the FOLLOWING month and carrying the month's score sum. -/
def monthlySpec (mr : MoodReport) (now : DT) : List (Int × Int) :=
  (List.range
      ((monthIdx now.localDay - monthIdx (earliestEntry mr now).localDay).toNat)).map
    (fun (j : Nat) =>
      (monthStartDay (monthIdx (earliestEntry mr now).localDay + (j : Int) + 1) * 86400 -
          now.offset,
        monthSum mr now (monthIdx (earliestEntry mr now).localDay + (j : Int))))

theorem monthlyFold_fst (bocm : DT) :
    ∀ (l : List DailyScore) (acc : DT × (Int → Int)),
      (l.foldl (MoodReport.monthlyFold bocm) acc).1 =
        (l.filter (fun ds => decide (ds.datetime.secs < bocm.secs))).foldl
          (fun a ds => if ds.datetime.secs < a.secs then ds.datetime else a) acc.1 := by
  intro l
  induction l with
  | nil =>
    intro acc
    rfl
  | cons a l ih =>
    intro acc
    rw [List.foldl_cons]
    by_cases h : bocm.secs ≤ a.datetime.secs
    · rw [List.filter_cons_of_neg (by simpa using h)]
      have hskip : MoodReport.monthlyFold bocm acc a = acc := by
        unfold MoodReport.monthlyFold
        rw [if_pos h]
      rw [hskip]
      exact ih acc
    · rw [List.filter_cons_of_pos (by simpa using h), List.foldl_cons]
      have hkeep : MoodReport.monthlyFold bocm acc a =
          ((if a.datetime.secs < acc.1.secs then a.datetime else acc.1),
           fun k => if k = (MoodReport.beginning_of_month a.datetime).secs
             then acc.2 k + a.score else acc.2 k) := by
        unfold MoodReport.monthlyFold
        rw [if_neg h]
      rw [hkeep]
      exact ih _

theorem monthlyFold_snd (bocm : DT) :
    ∀ (l : List DailyScore) (acc : DT × (Int → Int)) (k : Int),
      (l.foldl (MoodReport.monthlyFold bocm) acc).2 k =
        acc.2 k +
          (((l.filter (fun ds => decide (ds.datetime.secs < bocm.secs))).filter
              (fun ds => decide ((MoodReport.beginning_of_month ds.datetime).secs = k))).map
            DailyScore.score).sum := by
  intro l
  induction l with
  | nil =>
    intro acc k
    simp
  | cons a l ih =>
    intro acc k
    rw [List.foldl_cons]
    by_cases h : bocm.secs ≤ a.datetime.secs
    · rw [List.filter_cons_of_neg (by simpa using h)]
      have hskip : MoodReport.monthlyFold bocm acc a = acc := by
        unfold MoodReport.monthlyFold
        rw [if_pos h]
      rw [hskip, ih]
    · rw [List.filter_cons_of_pos (by simpa using h)]
      have hkeep : MoodReport.monthlyFold bocm acc a =
          ((if a.datetime.secs < acc.1.secs then a.datetime else acc.1),
           fun k => if k = (MoodReport.beginning_of_month a.datetime).secs
             then acc.2 k + a.score else acc.2 k) := by
        unfold MoodReport.monthlyFold
        rw [if_neg h]
      rw [hkeep, ih]
      dsimp only
      by_cases h2 : (MoodReport.beginning_of_month a.datetime).secs = k
      · rw [List.filter_cons_of_pos (by simpa using h2), List.map_cons, List.sum_cons,
          if_pos h2.symm]
        ring
      · rw [List.filter_cons_of_neg (by simpa using h2), if_neg (fun hk => h2 hk.symm)]

theorem earliest_fold_le :
    ∀ (l : List DailyScore) (acc : DT),
      (l.foldl (fun a ds => if ds.datetime.secs < a.secs then ds.datetime else a) acc).secs ≤
        acc.secs := by
  intro l
  induction l with
  | nil =>
    intro acc
    exact le_rfl
  | cons a l ih =>
    intro acc
    rw [List.foldl_cons]
    by_cases h : a.datetime.secs < acc.secs
    · rw [if_pos h]
      exact le_trans (ih a.datetime) (by omega)
    · rw [if_neg h]
      exact ih acc

theorem earliest_fold_cases :
    ∀ (l : List DailyScore) (acc : DT),
      l.foldl (fun a ds => if ds.datetime.secs < a.secs then ds.datetime else a) acc = acc ∨
      ∃ ds ∈ l,
        l.foldl (fun a ds => if ds.datetime.secs < a.secs then ds.datetime else a) acc =
          ds.datetime := by
  intro l
  induction l with
  | nil =>
    intro acc
    left
    rfl
  | cons a l ih =>
    intro acc
    rw [List.foldl_cons]
    by_cases h : a.datetime.secs < acc.secs
    · rw [if_pos h]
      rcases ih a.datetime with h2 | ⟨ds, hds, h2⟩
      · right
        exact ⟨a, List.mem_cons_self a l, h2⟩
      · right
        exact ⟨ds, List.mem_cons_of_mem a hds, h2⟩
    · rw [if_neg h]
      rcases ih acc with h2 | ⟨ds, hds, h2⟩
      · left
        exact h2
      · right
        exact ⟨ds, List.mem_cons_of_mem a hds, h2⟩

theorem earliestEntry_secs_le (mr : MoodReport) (now : DT) :
    (earliestEntry mr now).secs ≤ now.secs := by
  unfold earliestEntry
  exact earliest_fold_le _ now

theorem earliestEntry_offset (mr : MoodReport) (now : DT)
    (hoff : ∀ ds ∈ mr.daily_scores, ds.datetime.offset = now.offset) :
    (earliestEntry mr now).offset = now.offset := by
  unfold earliestEntry
  rcases earliest_fold_cases (monthlyEntries mr now) now with h | ⟨ds, hds, h⟩
  · rw [h]
  · rw [h]
    exact hoff ds (List.mem_filter.mp hds).1

theorem earliest_monthIdx_le (mr : MoodReport) (now : DT)
    (hoff : ∀ ds ∈ mr.daily_scores, ds.datetime.offset = now.offset) :
    monthIdx (earliestEntry mr now).localDay ≤ monthIdx now.localDay := by
  apply monthIdx_mono
  have h1 := earliestEntry_secs_le mr now
  have h2 := earliestEntry_offset mr now hoff
  unfold DT.localDay DT.localSecs
  rw [h2]
  exact Int.ediv_le_ediv (by norm_num) (by omega)

theorem monthStartDay_inj {a b : Int} (h : monthStartDay a = monthStartDay b) : a = b := by
  rcases lt_trichotomy a b with hlt | heq | hgt
  · have := monthStartDay_strict hlt
    omega
  · exact heq
  · have := monthStartDay_strict hgt
    omega

theorem keySum_eq_monthSum (mr : MoodReport) (now : DT)
    (hoff : ∀ ds ∈ mr.daily_scores, ds.datetime.offset = now.offset) (v : Int) :
    keySum mr now (monthStartDay v * 86400 - now.offset) = monthSum mr now v := by
  unfold keySum monthSum
  have hfil : (monthlyEntries mr now).filter
        (fun ds => decide ((MoodReport.beginning_of_month ds.datetime).secs =
          monthStartDay v * 86400 - now.offset)) =
      (monthlyEntries mr now).filter
        (fun ds => decide (monthIdx ds.datetime.localDay = v)) := by
    refine List.filter_congr (fun ds hds => ?_)
    have hmem : ds ∈ mr.daily_scores := (List.mem_filter.mp hds).1
    have hoffds := hoff ds hmem
    have hbom : (MoodReport.beginning_of_month ds.datetime).secs =
        monthStartDay (monthIdx ds.datetime.localDay) * 86400 - now.offset := by
      unfold MoodReport.beginning_of_month DT.ofDayOffset
      dsimp only
      rw [bomDay_eq, hoffds]
    rw [hbom]
    refine decide_eq_decide.mpr ?_
    constructor
    · intro h
      exact monthStartDay_inj (by omega)
    · intro h
      rw [h]
  rw [hfil]

theorem bom_ofDayOffset (d off : Int) :
    MoodReport.beginning_of_month (DT.ofDayOffset d off) = DT.ofDayOffset (bomDay d) off := by
  unfold MoodReport.beginning_of_month
  rw [DT.localDay_ofDayOffset]
  rfl

theorem bopm_ofDayOffset (d off : Int) :
    MoodReport.beginning_of_previous_month (DT.ofDayOffset d off) =
      DT.ofDayOffset (bomDay (d - 1)) off := by
  unfold MoodReport.beginning_of_previous_month
  rw [DT.localDay_ofDayOffset]
  exact bom_ofDayOffset (d - 1) off

theorem monthlyWalk_char (m : Int → Int) (off : Int) :
    ∀ (n : Nat) (M C : Int), C = M + (n : Int) →
      MoodReport.monthlyWalk m (monthStartDay M * 86400 - off)
          (DT.ofDayOffset (monthStartDay C) off) =
        (List.range n).map
          (fun (j : Nat) => (monthStartDay (C - (j : Int)) * 86400 - off,
            m (monthStartDay (C - (j : Int) - 1) * 86400 - off))) := by
  intro n
  induction n with
  | zero =>
    intro M C hC
    have hMC : C = M := by omega
    subst hMC
    rw [monthlyWalk_stop]
    · rfl
    · unfold DT.ofDayOffset
      dsimp only
      omega
  | succ n ih =>
    intro M C hC
    have hlt : monthStartDay M * 86400 - off < (DT.ofDayOffset (monthStartDay C) off).secs := by
      unfold DT.ofDayOffset
      dsimp only
      have := monthStartDay_strict (show M < C by omega)
      omega
    rw [monthlyWalk_step _ _ _ hlt, bopm_ofDayOffset, bomDay_pred,
      ih M (C - 1) (by omega)]
    rw [List.range_succ_eq_map, List.map_cons, List.map_map]
    congr 1
    · unfold DT.ofDayOffset
      dsimp only
      norm_num
    · refine List.map_congr_left (fun a ha => ?_)
      dsimp only [Function.comp]
      push_cast
      rw [show C - 1 - (a : Int) = C - ((a : Int) + 1) from by ring]

/-- C3 (amended): when all entries carry the same fixed offset as the
current instant, the monthly aggregate excludes exactly the entries on or
after the start of the current month, and returns, in chronological order,
one pair per month from the month of the earliest included entry up to
(but not including) the current month, each pair keyed by the timestamp of
the start of the FOLLOWING month and carrying the sum of the scores of the
entries of its month (0 when the month has no entry). -/
theorem c3_monthly_amended (mr : MoodReport) (now : DT)
    (hoff : ∀ ds ∈ mr.daily_scores, ds.datetime.offset = now.offset) :
    mr.iterative_monthly_mood now = monthlySpec mr now := by
  unfold MoodReport.iterative_monthly_mood
  dsimp only
  have hfst : (mr.daily_scores.foldl
      (MoodReport.monthlyFold (MoodReport.beginning_of_month now))
      (now, fun _ => (0 : Int))).1 = earliestEntry mr now := by
    rw [monthlyFold_fst]
    rfl
  have hsnd : (mr.daily_scores.foldl
      (MoodReport.monthlyFold (MoodReport.beginning_of_month now))
      (now, fun _ => (0 : Int))).2 = keySum mr now := by
    funext k
    rw [monthlyFold_snd]
    show (0 : Int) + _ = _
    rw [zero_add]
    rfl
  rw [hfst, hsnd]
  have hstop : (MoodReport.beginning_of_month (earliestEntry mr now)).secs =
      monthStartDay (monthIdx (earliestEntry mr now).localDay) * 86400 - now.offset := by
    unfold MoodReport.beginning_of_month DT.ofDayOffset
    dsimp only
    rw [bomDay_eq, earliestEntry_offset mr now hoff]
  have hbocm : MoodReport.beginning_of_month now =
      DT.ofDayOffset (monthStartDay (monthIdx now.localDay)) now.offset := by
    unfold MoodReport.beginning_of_month
    rw [bomDay_eq]
  rw [hstop, hbocm]
  have hle := earliest_monthIdx_le mr now hoff
  have hC : monthIdx now.localDay = monthIdx (earliestEntry mr now).localDay +
      ((monthIdx now.localDay - monthIdx (earliestEntry mr now).localDay).toNat : Int) := by
    omega
  rw [monthlyWalk_char (keySum mr now) now.offset
    ((monthIdx now.localDay - monthIdx (earliestEntry mr now).localDay).toNat)
    (monthIdx (earliestEntry mr now).localDay) (monthIdx now.localDay) hC]
  unfold monthlySpec
  apply List.ext_getElem
  · simp only [List.length_reverse, List.length_map, List.length_range]
  · intro r h1 h2
    have hr : r < (monthIdx now.localDay - monthIdx (earliestEntry mr now).localDay).toNat := by
      simpa using h2
    rw [List.getElem_reverse]
    simp only [List.length_map, List.length_range]
    rw [List.getElem_map, List.getElem_range, List.getElem_map, List.getElem_range]
    rw [show monthIdx now.localDay -
        (((monthIdx now.localDay - monthIdx (earliestEntry mr now).localDay).toNat
          - 1 - r : Nat) : Int) - 1 =
        monthIdx (earliestEntry mr now).localDay + (r : Int) from by omega]
    rw [show monthIdx now.localDay -
        (((monthIdx now.localDay - monthIdx (earliestEntry mr now).localDay).toNat
          - 1 - r : Nat) : Int) =
        monthIdx (earliestEntry mr now).localDay + (r : Int) + 1 from by omega]
    rw [keySum_eq_monthSum mr now hoff]

theorem c3_monthly_amended_witness :
    (∀ ds ∈ (MoodReport.mk [⟨5, [], some "", ⟨18769 * 86400, 0⟩⟩] []).daily_scores,
        ds.datetime.offset = (⟨18787 * 86400 + 15 * 3600, 0⟩ : DT).offset) ∧
      (MoodReport.mk [⟨5, [], some "", ⟨18769 * 86400, 0⟩⟩] []).iterative_monthly_mood
          ⟨18787 * 86400 + 15 * 3600, 0⟩ =
        monthlySpec (MoodReport.mk [⟨5, [], some "", ⟨18769 * 86400, 0⟩⟩] [])
          ⟨18787 * 86400 + 15 * 3600, 0⟩ :=
  ⟨by decide, c3_monthly_amended _ _ (by decide)⟩

/-! ## Characters and digits -/

theorem digit?_decChar (n : Nat) (h : n ≤ 9) : digit? (decChar n) = some n := by
  interval_cases n <;> rfl

theorem isWs_decChar (n : Nat) : isWs (decChar n) = false := by
  unfold decChar
  split <;> rfl

theorem decChar_ne_colon (n : Nat) : decChar n ≠ ':' := by
  unfold decChar
  split <;> decide

theorem decChar_ne_plus (n : Nat) : decChar n ≠ '+' := by
  unfold decChar
  split <;> decide

theorem decChar_ne_minus (n : Nat) : decChar n ≠ '-' := by
  unfold decChar
  split <;> decide

/-! ## takeDigits and parseNumUpTo on padded numerals -/

theorem takeDigits_zero (s : List Char) : takeDigits 0 s = ([], s) := rfl

theorem takeDigits_cons_digit (n : Nat) (x : Char) (v : Nat) (rest : List Char)
    (h : digit? x = some v) :
    takeDigits (n + 1) (x :: rest) =
      (v :: (takeDigits n rest).1, (takeDigits n rest).2) := by
  conv_lhs => unfold takeDigits
  rw [h]

theorem takeDigits_pad4 (y : Nat) (r : List Char) (hy : y ≤ 9999) :
    takeDigits 4 (pad4N y ++ r) = ([y / 1000, y / 100 % 10, y / 10 % 10, y % 10], r) := by
  unfold pad4N
  simp only [List.cons_append, List.nil_append]
  rw [takeDigits_cons_digit _ _ _ _ (digit?_decChar _ (by omega)),
    takeDigits_cons_digit _ _ _ _ (digit?_decChar _ (by omega)),
    takeDigits_cons_digit _ _ _ _ (digit?_decChar _ (by omega)),
    takeDigits_cons_digit _ _ _ _ (digit?_decChar _ (by omega)),
    takeDigits_zero]

theorem takeDigits_pad2 (v : Nat) (r : List Char) (hv : v ≤ 99) :
    takeDigits 2 (pad2N v ++ r) = ([v / 10, v % 10], r) := by
  unfold pad2N
  simp only [List.cons_append, List.nil_append]
  rw [takeDigits_cons_digit _ _ _ _ (digit?_decChar _ (by omega)),
    takeDigits_cons_digit _ _ _ _ (digit?_decChar _ (by omega)),
    takeDigits_zero]

theorem digitsToNat4 (y : Nat) :
    digitsToNat [y / 1000, y / 100 % 10, y / 10 % 10, y % 10] = y := by
  unfold digitsToNat
  simp only [List.foldl_cons, List.foldl_nil]
  have h1 : y / 100 / 10 = y / 1000 := by rw [Nat.div_div_eq_div_mul]
  have h2 : y / 10 / 10 = y / 100 := by rw [Nat.div_div_eq_div_mul]
  omega

theorem digitsToNat2 (v : Nat) : digitsToNat [v / 10, v % 10] = v := by
  unfold digitsToNat
  simp only [List.foldl_cons, List.foldl_nil]
  omega

theorem parseNumUpTo_pad4 (y : Nat) (r : List Char) (hy : y ≤ 9999) :
    parseNumUpTo 4 (pad4N y ++ r) = some (y, r) := by
  unfold parseNumUpTo
  rw [takeDigits_pad4 y r hy]
  show some (digitsToNat [y / 1000, y / 100 % 10, y / 10 % 10, y % 10], r) = some (y, r)
  rw [digitsToNat4]

theorem parseNumUpTo_pad2 (v : Nat) (r : List Char) (hv : v ≤ 99) :
    parseNumUpTo 2 (pad2N v ++ r) = some (v, r) := by
  unfold parseNumUpTo
  rw [takeDigits_pad2 v r hv]
  show some (digitsToNat [v / 10, v % 10], r) = some (v, r)
  rw [digitsToNat2 v]

theorem expectChar_cons_eq (x : Char) (r : List Char) : expectChar x (x :: r) = some r := by
  show (if x = x then some r else none) = some r
  rw [if_pos rfl]

/-! ## Whitespace -/

theorem skipWs_cons_ws (x : Char) (l : List Char) (h : isWs x = true) :
    skipWs (x :: l) = skipWs l := by
  unfold skipWs
  rw [List.dropWhile_cons, if_pos h]

theorem dropWhile_eq_self_of_head (l : List Char)
    (h : ∀ c, l.head? = some c → isWs c = false) : l.dropWhile isWs = l := by
  cases l with
  | nil => rfl
  | cons a l2 =>
    rw [List.dropWhile_cons, if_neg (by simp [h a rfl])]

theorem skipWs_pad2 (v : Nat) (r : List Char) : skipWs (pad2N v ++ r) = pad2N v ++ r := by
  unfold skipWs
  apply dropWhile_eq_self_of_head
  intro c hc
  unfold pad2N at hc
  rw [List.cons_append, List.head?_cons] at hc
  cases hc
  exact isWs_decChar _

theorem trim_nil : trim [] = [] := rfl

theorem head_not_ws_of_dropWhile (l : List Char) (h : l.dropWhile isWs = l) :
    ∀ c, l.head? = some c → isWs c = false := by
  intro c hc
  cases l with
  | nil => cases hc
  | cons a l2 =>
    rw [List.head?_cons] at hc
    cases hc
    by_contra hcon
    rw [List.dropWhile_cons, if_pos (by simpa using hcon)] at h
    have hle : (l2.dropWhile isWs).length ≤ l2.length :=
      (List.dropWhile_suffix isWs).length_le
    have hlen := congrArg List.length h
    simp only [List.length_cons] at hlen
    omega

theorem trim_parts (l : List Char) (h : trim l = l) :
    l.dropWhile isWs = l ∧ (l.reverse.dropWhile isWs).reverse = l := by
  unfold trim at h
  have hA : (l.dropWhile isWs).length ≤ l.length :=
    (List.dropWhile_suffix isWs).length_le
  have hB : ((l.dropWhile isWs).reverse.dropWhile isWs).length ≤
      (l.dropWhile isWs).reverse.length :=
    (List.dropWhile_suffix isWs).length_le
  have hlen := congrArg List.length h
  simp only [List.length_reverse] at hlen hB
  have hAeq : l.dropWhile isWs = l :=
    (List.dropWhile_suffix isWs).eq_of_length (by omega)
  constructor
  · exact hAeq
  · rw [hAeq] at h
    exact h

theorem trim_eq_self (l : List Char)
    (h1 : ∀ c, l.head? = some c → isWs c = false)
    (h2 : ∀ c, l.reverse.head? = some c → isWs c = false) : trim l = l := by
  unfold trim
  rw [dropWhile_eq_self_of_head l h1, dropWhile_eq_self_of_head l.reverse h2,
    List.reverse_reverse]

theorem trim_space_of_trim (x : List Char) (h : trim x = x) : trim (' ' :: x) = x := by
  obtain ⟨h1, h2⟩ := trim_parts x h
  unfold trim
  rw [List.dropWhile_cons, if_pos (by decide), h1, h2]

/-! ## The spaced separator and splitn -/

def hasSpacedSep : List Char → Bool
  | [] => false
  | c :: rest => (decide (c = ' ') && decide (rest.head? = some '|')) || hasSpacedSep rest

theorem findSpacedSep_cons (c : Char) (rest : List Char) :
    findSpacedSep (c :: rest) =
      if c = ' ' ∧ rest.head? = some '|' then some ([], rest.tail)
      else (findSpacedSep rest).map (fun p => (c :: p.1, p.2)) := rfl

theorem findSpacedSep_append (a b : List Char) (h : hasSpacedSep a = false) :
    findSpacedSep (a ++ ' ' :: '|' :: b) = some (a, b) := by
  induction a with
  | nil =>
    rw [List.nil_append, findSpacedSep_cons, if_pos ⟨rfl, rfl⟩]
    rfl
  | cons x a2 ih =>
    unfold hasSpacedSep at h
    simp only [Bool.or_eq_false_iff, Bool.and_eq_false_iff, decide_eq_false_iff_not] at h
    obtain ⟨hx, ha⟩ := h
    show findSpacedSep (x :: (a2 ++ ' ' :: '|' :: b)) = some (x :: a2, b)
    have hcond : ¬ (x = ' ' ∧ (a2 ++ ' ' :: '|' :: b).head? = some '|') := by
      rintro ⟨hxe, hh⟩
      cases a2 with
      | nil => simp at hh
      | cons y a3 =>
        rw [List.cons_append, List.head?_cons] at hh
        injection hh with hy
        rcases hx with hx | hx
        · exact hx hxe
        · rw [hy] at hx
          exact hx (by rw [List.head?_cons])
    rw [findSpacedSep_cons, if_neg hcond, ih ha]
    rfl

theorem splitn_step (n : Nat) (s pre post : List Char)
    (h : findSpacedSep s = some (pre, post)) :
    splitn (n + 2) s = pre :: splitn (n + 1) post := by
  conv_lhs => unfold splitn
  rw [h]

theorem splitn_one (s : List Char) : splitn 1 s = [s] := rfl

/-! ## Decimal rendering round trip -/

theorem digitsValAux_decChar (a d : Nat) (rest : List Char) (hd : d ≤ 9) :
    DailyScore.digitsValAux a (decChar d :: rest) =
      DailyScore.digitsValAux (a * 10 + d) rest := by
  conv_lhs => unfold DailyScore.digitsValAux
  rw [digit?_decChar d hd]

theorem digitsValAux_natCharsAux :
    ∀ (fuel n : Nat) (acc : List Char), n < fuel →
      DailyScore.digitsValAux 0 (natCharsAux fuel n acc) =
        DailyScore.digitsValAux n acc := by
  intro fuel
  induction fuel with
  | zero =>
    intro n acc h
    omega
  | succ fuel ih =>
    intro n acc h
    by_cases h10 : n < 10
    · have hstep : natCharsAux (fuel + 1) n acc = decChar n :: acc := by
        conv_lhs => unfold natCharsAux
        rw [if_pos h10]
      rw [hstep, digitsValAux_decChar 0 n acc (by omega)]
      rw [show 0 * 10 + n = n from by omega]
    · have hstep : natCharsAux (fuel + 1) n acc =
          natCharsAux fuel (n / 10) (decChar (n % 10) :: acc) := by
        conv_lhs => unfold natCharsAux
        rw [if_neg h10]
      rw [hstep, ih (n / 10) _ (by omega),
        digitsValAux_decChar (n / 10) (n % 10) acc (by omega)]
      rw [show n / 10 * 10 + n % 10 = n from by omega]

theorem natCharsAux_length :
    ∀ (fuel n : Nat) (acc : List Char), n < fuel →
      acc.length < (natCharsAux fuel n acc).length := by
  intro fuel
  induction fuel with
  | zero =>
    intro n acc h
    omega
  | succ fuel ih =>
    intro n acc h
    by_cases h10 : n < 10
    · have hstep : natCharsAux (fuel + 1) n acc = decChar n :: acc := by
        conv_lhs => unfold natCharsAux
        rw [if_pos h10]
      rw [hstep]
      simp
    · have hstep : natCharsAux (fuel + 1) n acc =
          natCharsAux fuel (n / 10) (decChar (n % 10) :: acc) := by
        conv_lhs => unfold natCharsAux
        rw [if_neg h10]
      rw [hstep]
      have := ih (n / 10) (decChar (n % 10) :: acc) (by omega)
      simp only [List.length_cons] at this
      omega

theorem natChars_ne_nil (n : Nat) : natChars n ≠ [] := by
  unfold natChars
  intro hcon
  have := natCharsAux_length (n + 1) n [] (by omega)
  rw [hcon] at this
  simp at this

theorem natCharsAux_chars :
    ∀ (fuel n : Nat) (acc : List Char) (c : Char), c ∈ natCharsAux fuel n acc →
      (∃ m, m ≤ 9 ∧ c = decChar m) ∨ c ∈ acc := by
  intro fuel
  induction fuel with
  | zero =>
    intro n acc c hc
    exact Or.inr hc
  | succ fuel ih =>
    intro n acc c hc
    by_cases h10 : n < 10
    · rw [show natCharsAux (fuel + 1) n acc = decChar n :: acc from by
        conv_lhs => unfold natCharsAux
        rw [if_pos h10]] at hc
      rcases List.mem_cons.mp hc with hc | hc
      · exact Or.inl ⟨n, by omega, hc⟩
      · exact Or.inr hc
    · rw [show natCharsAux (fuel + 1) n acc =
          natCharsAux fuel (n / 10) (decChar (n % 10) :: acc) from by
        conv_lhs => unfold natCharsAux
        rw [if_neg h10]] at hc
      rcases ih (n / 10) _ c hc with hc2 | hc2
      · exact Or.inl hc2
      · rcases List.mem_cons.mp hc2 with hc3 | hc3
        · exact Or.inl ⟨n % 10, by omega, hc3⟩
        · exact Or.inr hc3

theorem natChars_chars (n : Nat) (c : Char) (hc : c ∈ natChars n) :
    ∃ m, m ≤ 9 ∧ c = decChar m := by
  rcases natCharsAux_chars (n + 1) n [] c hc with h | h
  · exact h
  · cases h

theorem allDigitsVal_natChars (n : Nat) :
    DailyScore.allDigitsVal (natChars n) = some n := by
  obtain ⟨c, cs, hc⟩ := List.exists_cons_of_ne_nil (natChars_ne_nil n)
  have h1 : DailyScore.allDigitsVal (natChars n) =
      DailyScore.digitsValAux 0 (natChars n) := by
    rw [hc]
    rfl
  rw [h1]
  unfold natChars
  rw [digitsValAux_natCharsAux (n + 1) n [] (by omega)]
  rfl

theorem intChars_chars (v : Int) (c : Char) (hc : c ∈ intChars v) :
    c = '-' ∨ ∃ m, m ≤ 9 ∧ c = decChar m := by
  unfold intChars at hc
  by_cases hneg : v < 0
  · rw [if_pos hneg] at hc
    rcases List.mem_cons.mp hc with hc | hc
    · exact Or.inl hc
    · exact Or.inr (natChars_chars _ c hc)
  · rw [if_neg hneg] at hc
    exact Or.inr (natChars_chars _ c hc)

theorem parse_i8_cons (c : Char) (rest : List Char) :
    DailyScore.parse_i8 (c :: rest) =
      if c = '+' then
        (DailyScore.allDigitsVal rest).bind
          (fun n => if n ≤ 127 then some ((n : Int)) else none)
      else if c = '-' then
        (DailyScore.allDigitsVal rest).bind
          (fun n => if n ≤ 128 then some (-(n : Int)) else none)
      else (DailyScore.allDigitsVal (c :: rest)).bind
        (fun n => if n ≤ 127 then some ((n : Int)) else none) := rfl

theorem parse_i8_intChars (v : Int) (h1 : -128 ≤ v) (h2 : v ≤ 127) :
    DailyScore.parse_i8 (intChars v) = some v := by
  unfold intChars
  by_cases hneg : v < 0
  · rw [if_pos hneg, parse_i8_cons, if_neg (by decide), if_pos rfl, allDigitsVal_natChars]
    show (if v.natAbs ≤ 128 then some (-(v.natAbs : Int)) else none) = some v
    rw [if_pos (by omega)]
    congr 1
    omega
  · rw [if_neg hneg]
    obtain ⟨c, cs, hc⟩ := List.exists_cons_of_ne_nil (natChars_ne_nil v.natAbs)
    obtain ⟨m, hm, hcm⟩ := natChars_chars v.natAbs c (by rw [hc]; exact List.mem_cons_self c cs)
    rw [hc, parse_i8_cons,
      if_neg (by rw [hcm]; exact decChar_ne_plus m),
      if_neg (by rw [hcm]; exact decChar_ne_minus m), ← hc, allDigitsVal_natChars]
    show (if v.natAbs ≤ 127 then some ((v.natAbs : Int)) else none) = some v
    rw [if_pos (by omega)]
    congr 1
    omega

/-! ## Offset and datetime format round trip -/

theorem skipWs_cons_not (x : Char) (l : List Char) (h : isWs x = false) :
    skipWs (x :: l) = x :: l := by
  unfold skipWs
  rw [List.dropWhile_cons, if_neg (by simp [h])]

theorem daysInMonth_le (y m : Int) : daysInMonth y m ≤ 31 := by
  unfold daysInMonth
  split_ifs <;> omega

theorem pad2_head_ne_colon (v : Nat) : ¬ ((pad2N v).head? = some ':') := by
  unfold pad2N
  rw [List.head?_cons]
  intro hcon
  injection hcon with hc
  exact decChar_ne_colon _ hc

theorem parseTz_format (off : Int) (h60 : off % 60 = 0) (hlo : -86400 < off)
    (hhi : off < 86400) :
    parseTz ((if off < 0 then '-' else '+') ::
        (pad2N (off.natAbs / 3600) ++ pad2N (off.natAbs % 3600 / 60))) = some (off, []) := by
  have hOH : off.natAbs / 3600 ≤ 99 := by omega
  have hOM : off.natAbs % 3600 / 60 ≤ 99 := by omega
  have hmm2 : pad2N (off.natAbs % 3600 / 60) =
      pad2N (off.natAbs % 3600 / 60) ++ ([] : List Char) := (List.append_nil _).symm
  by_cases hneg : off < 0
  · rw [if_pos hneg]
    conv_lhs => unfold parseTz
    dsimp only
    rw [show (if ('-' : Char) = '+' then (some 1 : Option Int)
        else if ('-' : Char) = '-' then some (-1) else none) = some (-1) from by decide]
    dsimp only
    rw [takeDigits_pad2 _ _ hOH]
    dsimp only
    rw [if_neg (pad2_head_ne_colon _), hmm2, takeDigits_pad2 _ _ hOM]
    dsimp only
    congr 2
    omega
  · rw [if_neg hneg]
    conv_lhs => unfold parseTz
    dsimp only
    rw [show (if ('+' : Char) = '+' then (some 1 : Option Int)
        else if ('+' : Char) = '-' then some (-1) else none) = some 1 from by decide]
    dsimp only
    rw [takeDigits_pad2 _ _ hOH]
    dsimp only
    rw [if_neg (pad2_head_ne_colon _), hmm2, takeDigits_pad2 _ _ hOM]
    dsimp only
    congr 2
    omega

theorem parseDateTime_format (dt : DT) (h60 : dt.offset % 60 = 0)
    (hlo : -86400 < dt.offset) (hhi : dt.offset < 86400)
    (hy0 : 0 ≤ (civilFromDays dt.localDay).1)
    (hy9 : (civilFromDays dt.localDay).1 ≤ 9999) :
    parseDateTime (formatDateTime dt) = some dt := by
  obtain ⟨hm1, hm12, hd1, hdm⟩ := cfd_valid dt.localDay
  have hdm31 := daysInMonth_le (civilFromDays dt.localDay).1 (civilFromDays dt.localDay).2.1
  have hsod0 : 0 ≤ dt.localSecs % 86400 := Int.emod_nonneg _ (by norm_num)
  have hsod1 : dt.localSecs % 86400 < 86400 := Int.emod_lt_of_pos _ (by norm_num)
  have hsgnws : isWs (if dt.offset < 0 then '-' else '+') = false := by
    by_cases hn : dt.offset < 0
    · rw [if_pos hn]
      rfl
    · rw [if_neg hn]
      rfl
  unfold formatDateTime
  dsimp only
  simp only [List.append_assoc, List.cons_append]
  unfold parseDateTime
  rw [parseNumUpTo_pad4 _ _ (by omega)]
  dsimp only
  rw [expectChar_cons_eq]
  dsimp only
  rw [parseNumUpTo_pad2 _ _ (by omega)]
  dsimp only
  rw [expectChar_cons_eq]
  dsimp only
  rw [parseNumUpTo_pad2 _ _ (by omega)]
  dsimp only
  rw [skipWs_cons_ws _ _ (by rfl), skipWs_pad2, parseNumUpTo_pad2 _ _ (by omega)]
  dsimp only
  rw [expectChar_cons_eq]
  dsimp only
  rw [parseNumUpTo_pad2 _ _ (by omega)]
  dsimp only
  rw [expectChar_cons_eq]
  dsimp only
  rw [parseNumUpTo_pad2 _ _ (by omega)]
  dsimp only
  rw [skipWs_cons_ws _ _ (by rfl), skipWs_cons_not _ _ hsgnws,
    parseTz_format dt.offset h60 hlo hhi]
  dsimp only
  rw [if_pos (by
    refine ⟨rfl, by omega, by omega, by omega, ?_, by omega, by omega, by omega, hhi, hlo⟩
    rw [Int.toNat_of_nonneg hy0, Int.toNat_of_nonneg (by omega : (0:Int) ≤ _),
      Int.toNat_of_nonneg (by omega : (0:Int) ≤ _)]
    exact hdm)]
  have hdfc : daysFromCivil ((civilFromDays dt.localDay).1.toNat : Int)
      ((civilFromDays dt.localDay).2.1.toNat : Int)
      ((civilFromDays dt.localDay).2.2.toNat : Int) = dt.localDay := by
    rw [Int.toNat_of_nonneg hy0, Int.toNat_of_nonneg (by omega : (0:Int) ≤ _),
      Int.toNat_of_nonneg (by omega : (0:Int) ≤ _)]
    exact daysFromCivil_civilFromDays dt.localDay
  rw [hdfc]
  have htime : (((dt.localSecs % 86400 / 3600).toNat : Int) * 3600 +
      ((dt.localSecs % 86400 % 3600 / 60).toNat : Int) * 60 +
      ((dt.localSecs % 86400 % 60).toNat : Int)) = dt.localSecs % 86400 := by
    omega
  rw [htime]
  have hfinal : dt.localDay * 86400 + dt.localSecs % 86400 - dt.offset = dt.secs := by
    unfold DT.localDay DT.localSecs
    omega
  rw [hfinal]

/-! ## Tag list round trip -/

theorem mem_of_head? (l : List Char) (c : Char) (h : l.head? = some c) : c ∈ l := by
  cases l with
  | nil => cases h
  | cons a l2 =>
    rw [List.head?_cons] at h
    injection h with h2
    rw [← h2]
    exact List.mem_cons_self _ _

theorem trim_eq_self_of_all (l : List Char) (h : ∀ c ∈ l, isWs c = false) : trim l = l := by
  apply trim_eq_self
  · intro c hc
    exact h c (mem_of_head? l c hc)
  · intro c hc
    exact h c (List.mem_reverse.mp (mem_of_head? l.reverse c hc))

theorem mem_insertSorted (x t : String) :
    ∀ l : List String, t ∈ insertSorted x l ↔ t = x ∨ t ∈ l := by
  intro l
  induction l with
  | nil => simp [insertSorted]
  | cons y ys ih =>
    show t ∈ (if strLe x y then x :: y :: ys else y :: insertSorted x ys) ↔ _
    by_cases h : strLe x y
    · rw [if_pos h]
      simp only [List.mem_cons]
    · rw [if_neg h]
      simp only [List.mem_cons, ih]
      tauto

theorem mem_sortStrings (t : String) (l : List String) : t ∈ sortStrings l ↔ t ∈ l := by
  induction l with
  | nil => exact Iff.rfl
  | cons a l2 ih =>
    show t ∈ insertSorted a (sortStrings l2) ↔ _
    rw [mem_insertSorted, ih]
    exact (List.mem_cons).symm

theorem exists_concat (l : List String) (h : l ≠ []) : ∃ L b, l = L ++ [b] := by
  obtain ⟨b, L2, hb⟩ := List.exists_cons_of_ne_nil (show l.reverse ≠ [] by simpa using h)
  refine ⟨L2.reverse, b, ?_⟩
  have h2 := congrArg List.reverse hb
  simpa using h2

theorem joinComma_cons_cons (t u : List Char) (ts : List (List Char)) :
    joinComma (t :: u :: ts) = t ++ ',' :: joinComma (u :: ts) := rfl

theorem joinComma_head (t : List Char) (ts : List (List Char)) (h : t ≠ []) :
    (joinComma (t :: ts)).head? = t.head? := by
  obtain ⟨c, t2, rfl⟩ := List.exists_cons_of_ne_nil h
  cases ts with
  | nil => rfl
  | cons u ts2 =>
    rw [joinComma_cons_cons, List.cons_append, List.head?_cons, List.head?_cons]

theorem joinComma_last (t : List Char) (h : t ≠ []) :
    ∀ ll : List (List Char), (joinComma (ll ++ [t])).getLast? = t.getLast? := by
  intro ll
  induction ll with
  | nil => rfl
  | cons u ll2 ih =>
    obtain ⟨w, ws, hw⟩ := List.exists_cons_of_ne_nil (show ll2 ++ [t] ≠ [] by simp)
    rw [show joinComma (u :: ll2 ++ [t]) = u ++ ',' :: joinComma (ll2 ++ [t]) from by
      rw [List.cons_append, hw]
      rfl]
    rw [List.getLast?_append]
    cases hX : (joinComma (ll2 ++ [t])) with
    | nil =>
      rw [hX] at ih
      exact absurd (List.getLast?_eq_none_iff.mp ih.symm) h
    | cons w2 ws2 =>
      rw [hX] at ih
      rw [List.getLast?_cons_cons, ih]
      cases ht : t.getLast? with
      | none => exact absurd (List.getLast?_eq_none_iff.mp ht) h
      | some lt => rw [Option.or_some]

theorem joinComma_mem (c : Char) : ∀ ll : List (List Char), c ∈ joinComma ll →
    c = ',' ∨ ∃ t ∈ ll, c ∈ t := by
  intro ll
  induction ll with
  | nil =>
    intro h
    cases h
  | cons t ts ih =>
    intro h
    cases ts with
    | nil => exact Or.inr ⟨t, List.mem_cons_self _ _, h⟩
    | cons u ts2 =>
      rw [joinComma_cons_cons] at h
      rcases List.mem_append.mp h with h2 | h2
      · exact Or.inr ⟨t, List.mem_cons_self _ _, h2⟩
      · rcases List.mem_cons.mp h2 with h3 | h3
        · exact Or.inl h3
        · rcases ih h3 with h4 | ⟨w, hw, h5⟩
          · exact Or.inl h4
          · exact Or.inr ⟨w, List.mem_cons_of_mem _ hw, h5⟩

theorem splitChar_cons (c x : Char) (rest : List Char) :
    splitChar c (x :: rest) =
      if x = c then [] :: splitChar c rest
      else match splitChar c rest with
        | p :: ps => (x :: p) :: ps
        | [] => [[x]] := rfl

theorem splitChar_no (c : Char) (t : List Char) (h : c ∉ t) : splitChar c t = [t] := by
  induction t with
  | nil => rfl
  | cons x rest ih =>
    have hx : ¬ x = c := fun he => h (by rw [he]; exact List.mem_cons_self c rest)
    have hr : c ∉ rest := fun hm => h (List.mem_cons_of_mem x hm)
    rw [splitChar_cons, if_neg hx, ih hr]

theorem splitChar_append (c : Char) (t r : List Char) (h : c ∉ t) :
    splitChar c (t ++ c :: r) = t :: splitChar c r := by
  induction t with
  | nil =>
    rw [List.nil_append, splitChar_cons, if_pos rfl]
  | cons x t2 ih =>
    have hx : ¬ x = c := fun he => h (by rw [he]; exact List.mem_cons_self c t2)
    have ht2 : c ∉ t2 := fun hm => h (List.mem_cons_of_mem x hm)
    rw [List.cons_append, splitChar_cons, if_neg hx, ih ht2]

theorem splitChar_joinComma : ∀ ll : List (List Char), ll ≠ [] →
    (∀ t ∈ ll, ',' ∉ t) → splitChar ',' (joinComma ll) = ll := by
  intro ll
  induction ll with
  | nil =>
    intro hne _
    cases hne rfl
  | cons t ts ih =>
    intro _ hall
    cases ts with
    | nil => exact splitChar_no ',' t (hall t (List.mem_cons_self t []))
    | cons u ts2 =>
      rw [joinComma_cons_cons,
        splitChar_append ',' t _ (hall t (List.mem_cons_self _ _)),
        ih (by simp) (fun x hx => hall x (List.mem_cons_of_mem t hx))]

/-! ## No pipe characters in the encoded prefix -/

theorem decChar_ne_pipe (n : Nat) : decChar n ≠ '|' := by
  unfold decChar
  split <;> decide

theorem hasSpacedSep_eq_false (l : List Char) (h : '|' ∉ l) : hasSpacedSep l = false := by
  induction l with
  | nil => rfl
  | cons x rest ih =>
    show ((decide (x = ' ') && decide (rest.head? = some '|')) || hasSpacedSep rest) = false
    rw [ih (fun hm => h (List.mem_cons_of_mem x hm)), Bool.or_false]
    cases rest with
    | nil => simp
    | cons y rest2 =>
      rw [List.head?_cons]
      have hy : ¬ y = '|' := fun he => h (by
        rw [← he]
        exact List.mem_cons_of_mem x (List.mem_cons_self y rest2))
      simp [hy]

theorem intChars_no_pipe (v : Int) : '|' ∉ intChars v := by
  intro hmem
  rcases intChars_chars v '|' hmem with h | ⟨m, _, h⟩
  · exact absurd h (by decide)
  · exact decChar_ne_pipe m h.symm

theorem formatDateTime_no_pipe (dt : DT) : '|' ∉ formatDateTime dt := by
  intro hmem
  unfold formatDateTime pad4N pad2N at hmem
  dsimp only at hmem
  simp only [List.cons_append, List.nil_append, List.mem_cons, List.mem_append,
    List.not_mem_nil, or_false] at hmem
  rcases hmem with h|h|h|h|h|h|h|h|h|h|h|h|h|h|h|h|h|h|h|h|h|h|h|h|h <;>
    first
      | exact decChar_ne_pipe _ h.symm
      | exact absurd h (by decide)
      | (revert h
         by_cases hn : dt.offset < 0
         · rw [if_pos hn]
           decide
         · rw [if_neg hn]
           decide)

/-! ## Trim stability of the encoded fields -/

theorem head_not_ws_of_trim (l : List Char) (h : trim l = l) :
    ∀ ch, l.head? = some ch → isWs ch = false :=
  head_not_ws_of_dropWhile l (trim_parts l h).1

theorem last_not_ws_of_trim (l : List Char) (h : trim l = l) :
    ∀ ch, l.getLast? = some ch → isWs ch = false := by
  intro ch hch
  have h2 := (trim_parts l h).2
  have h3 : l.reverse.dropWhile isWs = l.reverse := by
    have h4 := congrArg List.reverse h2
    simpa using h4
  exact head_not_ws_of_dropWhile l.reverse h3 ch (by rw [List.head?_reverse]; exact hch)

theorem formatDateTime_trim (dt : DT) :
    trim (formatDateTime dt) = formatDateTime dt := by
  apply trim_eq_self
  · intro ch hch
    unfold formatDateTime pad4N at hch
    dsimp only at hch
    simp only [List.cons_append, List.append_assoc, List.nil_append] at hch
    rw [List.head?_cons] at hch
    injection hch with h2
    rw [← h2]
    exact isWs_decChar _
  · intro ch hch
    rw [List.head?_reverse] at hch
    unfold formatDateTime pad4N pad2N at hch
    dsimp only at hch
    simp only [List.cons_append, List.append_assoc, List.nil_append] at hch
    simp only [List.getLast?_cons_cons] at hch
    rw [List.getLast?_singleton] at hch
    injection hch with h2
    rw [← h2]
    exact isWs_decChar _

theorem intChars_trim (v : Int) : trim (intChars v) = intChars v := by
  apply trim_eq_self_of_all
  intro ch hch
  rcases intChars_chars v ch hch with h | ⟨m, _, h⟩
  · rw [h]
    rfl
  · rw [h]
    exact isWs_decChar m

theorem head?_ne_nil (l : List Char) (x : Char) (h : l.head? = some x) : l ≠ [] := by
  intro hnil
  rw [hnil] at h
  cases h

theorem tags_string_no_pipe (ds : DailyScore)
    (htags : ∀ t ∈ ds.tags, '|' ∉ t.data) : '|' ∉ DailyScore.tags_string ds := by
  intro hmem
  unfold DailyScore.tags_string at hmem
  rcases joinComma_mem '|' _ hmem with h | ⟨t, ht, h2⟩
  · exact absurd h (by decide)
  · obtain ⟨s, hs, rfl⟩ := List.mem_map.mp ht
    exact htags s ((mem_sortStrings s ds.tags).mp hs) h2

theorem tags_string_trim (ds : DailyScore)
    (htags : ∀ t ∈ ds.tags, t.data ≠ [] ∧ trim t.data = t.data) :
    trim (DailyScore.tags_string ds) = DailyScore.tags_string ds := by
  by_cases h0 : ds.tags = []
  · rw [show DailyScore.tags_string ds = [] by
      unfold DailyScore.tags_string
      rw [h0]
      rfl]
    exact trim_nil
  · have hsne : sortStrings ds.tags ≠ [] := by
      obtain ⟨a, ha⟩ := List.exists_mem_of_ne_nil _ h0
      exact List.ne_nil_of_mem ((mem_sortStrings a ds.tags).mpr ha)
    obtain ⟨t0, ts0, hcons⟩ := List.exists_cons_of_ne_nil hsne
    obtain ⟨L, bL, hconcat⟩ := exists_concat _ hsne
    have ht0 : t0 ∈ ds.tags := (mem_sortStrings t0 ds.tags).mp (by
      rw [hcons]
      exact List.mem_cons_self _ _)
    have hbL : bL ∈ ds.tags := (mem_sortStrings bL ds.tags).mp (by
      rw [hconcat]
      exact List.mem_append.mpr (Or.inr (List.mem_cons_self _ _)))
    apply trim_eq_self
    · intro ch hch
      unfold DailyScore.tags_string at hch
      rw [hcons, List.map_cons, joinComma_head t0.data _ (htags t0 ht0).1] at hch
      exact head_not_ws_of_trim t0.data (htags t0 ht0).2 ch hch
    · intro ch hch
      rw [List.head?_reverse] at hch
      unfold DailyScore.tags_string at hch
      rw [hconcat, List.map_append, List.map_cons, List.map_nil,
        joinComma_last bL.data (htags bL hbL).1] at hch
      exact last_not_ws_of_trim bL.data (htags bL hbL).2 ch hch

/-- C2 (amended): encoding and decoding round-trips every constructible
entry — one whose score is in the `i8` range, whose offset is a
whole-minute offset within a day, whose local date has a four-digit year,
whose tags are nonempty, trimmed, and free of the separators `,` and `|`,
and whose comment is present and trimmed — preserving score, comment and
timestamp (offset included) exactly, and the tags as a set.  (Per the
`c2_counterexample`, a `None` comment does NOT round-trip: it returns as
`Some ""`, which is why the comment must be present here.) -/
theorem c2_roundtrip_amended (ds : DailyScore) (c : String)
    (hc : ds.comment = some c) (hctrim : trim c.data = c.data)
    (hs1 : -128 ≤ ds.score) (hs2 : ds.score ≤ 127)
    (ho60 : ds.datetime.offset % 60 = 0)
    (holo : -86400 < ds.datetime.offset) (hohi : ds.datetime.offset < 86400)
    (hy0 : 0 ≤ (civilFromDays ds.datetime.localDay).1)
    (hy9 : (civilFromDays ds.datetime.localDay).1 ≤ 9999)
    (htags : ∀ t ∈ ds.tags, t.data ≠ [] ∧ trim t.data = t.data ∧
      ',' ∉ t.data ∧ '|' ∉ t.data) :
    ∃ ds2 : DailyScore, DailyScore.parse ds.to_s = .ok ds2 ∧
      ds2.score = ds.score ∧ ds2.comment = ds.comment ∧ ds2.datetime = ds.datetime ∧
      ∀ t : String, t ∈ ds2.tags ↔ t ∈ ds.tags := by
  have hsdata : (DailyScore.to_s ds).data =
      formatDateTime ds.datetime ++ ' ' :: '|' ::
        ((' ' :: intChars ds.score) ++ ' ' :: '|' ::
          ((' ' :: DailyScore.tags_string ds) ++ ' ' :: '|' :: (' ' :: c.data))) := by
    unfold DailyScore.to_s JOURNAL_SEPARATOR
    rw [hc]
    dsimp only
    simp only [List.append_assoc, List.cons_append, List.nil_append]
  have hno1 : hasSpacedSep (formatDateTime ds.datetime) = false :=
    hasSpacedSep_eq_false _ (formatDateTime_no_pipe ds.datetime)
  have hno2 : hasSpacedSep (' ' :: intChars ds.score) = false := by
    apply hasSpacedSep_eq_false
    intro hm
    rcases List.mem_cons.mp hm with h | h
    · exact absurd h (by decide)
    · exact intChars_no_pipe ds.score h
  have hno3 : hasSpacedSep (' ' :: DailyScore.tags_string ds) = false := by
    apply hasSpacedSep_eq_false
    intro hm
    rcases List.mem_cons.mp hm with h | h
    · exact absurd h (by decide)
    · exact tags_string_no_pipe ds (fun t ht => (htags t ht).2.2.2) h
  have hfs1 : findSpacedSep (DailyScore.to_s ds).data =
      some (formatDateTime ds.datetime,
        (' ' :: intChars ds.score) ++ ' ' :: '|' ::
          ((' ' :: DailyScore.tags_string ds) ++ ' ' :: '|' :: (' ' :: c.data))) := by
    rw [hsdata]
    exact findSpacedSep_append _ _ hno1
  have hfs2 : findSpacedSep ((' ' :: intChars ds.score) ++ ' ' :: '|' ::
      ((' ' :: DailyScore.tags_string ds) ++ ' ' :: '|' :: (' ' :: c.data))) =
      some (' ' :: intChars ds.score,
        (' ' :: DailyScore.tags_string ds) ++ ' ' :: '|' :: (' ' :: c.data)) :=
    findSpacedSep_append _ _ hno2
  have hfs3 : findSpacedSep ((' ' :: DailyScore.tags_string ds) ++ ' ' :: '|' ::
      (' ' :: c.data)) = some (' ' :: DailyScore.tags_string ds, ' ' :: c.data) :=
    findSpacedSep_append _ _ hno3
  have hsplit : splitn 4 (DailyScore.to_s ds).data =
      [formatDateTime ds.datetime, ' ' :: intChars ds.score,
        ' ' :: DailyScore.tags_string ds, ' ' :: c.data] := by
    have e1 : splitn 4 (DailyScore.to_s ds).data =
        formatDateTime ds.datetime :: splitn 3 ((' ' :: intChars ds.score) ++ ' ' :: '|' ::
          ((' ' :: DailyScore.tags_string ds) ++ ' ' :: '|' :: (' ' :: c.data))) :=
      splitn_step 2 _ _ _ hfs1
    have e2 : splitn 3 ((' ' :: intChars ds.score) ++ ' ' :: '|' ::
        ((' ' :: DailyScore.tags_string ds) ++ ' ' :: '|' :: (' ' :: c.data))) =
        (' ' :: intChars ds.score) :: splitn 2
          ((' ' :: DailyScore.tags_string ds) ++ ' ' :: '|' :: (' ' :: c.data)) :=
      splitn_step 1 _ _ _ hfs2
    have e3 : splitn 2 ((' ' :: DailyScore.tags_string ds) ++ ' ' :: '|' ::
        (' ' :: c.data)) = (' ' :: DailyScore.tags_string ds) :: splitn 1 (' ' :: c.data) :=
      splitn_step 0 _ _ _ hfs3
    rw [e1, e2, e3, splitn_one]
  have httrim : trim (DailyScore.tags_string ds) = DailyScore.tags_string ds :=
    tags_string_trim ds (fun t ht => ⟨(htags t ht).1, (htags t ht).2.1⟩)
  unfold DailyScore.parse
  dsimp only
  rw [hsplit]
  simp only [List.map_cons, List.map_nil]
  rw [formatDateTime_trim ds.datetime, trim_space_of_trim _ (intChars_trim ds.score),
    trim_space_of_trim _ httrim, trim_space_of_trim _ hctrim]
  rw [parseDateTime_format ds.datetime ho60 holo hohi hy0 hy9]
  dsimp only
  rw [parse_i8_intChars ds.score hs1 hs2]
  dsimp only
  by_cases htags0 : ds.tags = []
  · have h0 : DailyScore.tags_string ds = [] := by
      unfold DailyScore.tags_string
      rw [htags0]
      rfl
    rw [h0]
    simp only [List.headD_cons, List.drop_succ_cons, List.drop_zero, List.head?_cons,
      Option.map_some']
    rw [if_pos trivial]
    refine ⟨_, rfl, rfl, ?_, rfl, ?_⟩
    · rw [hc]
    · intro t
      rw [htags0]
  · have hsne : sortStrings ds.tags ≠ [] := by
      obtain ⟨a, ha⟩ := List.exists_mem_of_ne_nil _ htags0
      exact List.ne_nil_of_mem ((mem_sortStrings a ds.tags).mpr ha)
    obtain ⟨t0, ts0, hcons⟩ := List.exists_cons_of_ne_nil hsne
    have ht0 : t0 ∈ ds.tags := (mem_sortStrings t0 ds.tags).mp (by
      rw [hcons]
      exact List.mem_cons_self _ _)
    have h0 : DailyScore.tags_string ds ≠ [] := by
      apply head?_ne_nil _ (t0.data.headD ' ')
      unfold DailyScore.tags_string
      rw [hcons, List.map_cons, joinComma_head t0.data _ (htags t0 ht0).1]
      obtain ⟨c0, cd0, hc0⟩ := List.exists_cons_of_ne_nil (htags t0 ht0).1
      rw [hc0]
      rfl
    simp only [List.headD_cons, List.drop_succ_cons, List.drop_zero, List.head?_cons,
      Option.map_some']
    rw [if_neg h0]
    have hsc : splitChar ',' (DailyScore.tags_string ds) =
        (sortStrings ds.tags).map String.data := by
      unfold DailyScore.tags_string
      apply splitChar_joinComma
      · simpa using hsne
      · intro t ht
        obtain ⟨s, hs, rfl⟩ := List.mem_map.mp ht
        exact (htags s ((mem_sortStrings s ds.tags).mp hs)).2.2.1
    rw [hsc, List.map_map,
      show (String.mk ∘ String.data) = id from funext (fun s => by cases s; rfl),
      List.map_id]
    refine ⟨_, rfl, rfl, ?_, rfl, ?_⟩
    · rw [hc]
    · intro t
      exact mem_sortStrings t ds.tags

theorem c2_roundtrip_amended_witness :
    (⟨1, ["b", "a"], some "hi", ⟨1580541011, 7200⟩⟩ : DailyScore).comment = some "hi" ∧
      ∃ ds2 : DailyScore,
        DailyScore.parse
            (DailyScore.to_s ⟨1, ["b", "a"], some "hi", ⟨1580541011, 7200⟩⟩) = .ok ds2 ∧
          ds2.score = (⟨1, ["b", "a"], some "hi", ⟨1580541011, 7200⟩⟩ : DailyScore).score ∧
          ds2.comment =
            (⟨1, ["b", "a"], some "hi", ⟨1580541011, 7200⟩⟩ : DailyScore).comment ∧
          ds2.datetime =
            (⟨1, ["b", "a"], some "hi", ⟨1580541011, 7200⟩⟩ : DailyScore).datetime ∧
          ∀ t : String, t ∈ ds2.tags ↔
            t ∈ (⟨1, ["b", "a"], some "hi", ⟨1580541011, 7200⟩⟩ : DailyScore).tags :=
  ⟨rfl, c2_roundtrip_amended _ "hi" rfl (by decide) (by decide) (by decide) (by decide)
    (by decide) (by decide) (by decide) (by decide) (by decide)⟩

end Howdy
